import Mathlib

/-!
Verification of the byte-oriented Huffman compressor in `huffman.py`.

The Python source manipulates `HuffmanNode` objects (from the external
module `nodes`, not part of the sources): mutable records with fields
`symbol` (an int or `None`), `left`/`right` (a child node or `None`) and
`number` (an int or `None`).  We embed them as the inductive `HNode`
below with `Option` fields.  Mutation is modelled by state passing,
Python exceptions (`AttributeError`, `IndexError`, `TypeError`,
`KeyError`, `ZeroDivisionError`, `OverflowError`) by `Option`-valued
functions returning `none`, bit strings of the characters '0'/'1' by
`List Bool` (`false` for '0', `true` for '1'), and Python dicts by
insertion-ordered association lists with in-place update.
-/

namespace Huffman

/-- Modelled from the spec: the `TreeNode` data model of §3 (the Python
`HuffmanNode` of the missing `nodes` module): `symbol` is an int or
`None`, `left`/`right` are child nodes or `None`, `number` is an int or
`None` (unset until the numbering pass). -/
inductive HNode : Type where
  | mk (symbol : Option Nat) (left right : Option HNode) (number : Option Int) : HNode

/-- Field accessor for `symbol`. -/
def HNode.symbol : HNode → Option Nat
  | .mk s _ _ _ => s

/-- Field accessor for `left`. -/
def HNode.left : HNode → Option HNode
  | .mk _ l _ _ => l

/-- Field accessor for `right`. -/
def HNode.right : HNode → Option HNode
  | .mk _ _ r _ => r

/-- Field accessor for `number`. -/
def HNode.number : HNode → Option Int
  | .mk _ _ _ n => n

/-- Python `HuffmanNode.is_leaf`: `not self.left and not self.right`
(a node object is truthy, `None` is falsy, so this tests that both
children are `None`). -/
def HNode.is_leaf (t : HNode) : Bool :=
  t.left.isNone && t.right.isNone

/-- Shorthand for a fresh leaf node `HuffmanNode(s)`. -/
def leafN (s : Nat) : HNode := .mk (some s) none none none

/-- Shorthand for a fresh internal node `HuffmanNode(None, l, r)`. -/
def nodeN (l r : HNode) : HNode := .mk none (some l) (some r) none

/-- Modelled from the spec: structural tree equality (the Python
`HuffmanNode.__eq__` of the missing `nodes` module) — same shape and the
same symbols at the same positions; the `number` field is not compared. -/
def structEq : HNode → HNode → Bool
  | .mk s1 l1 r1 _, .mk s2 l2 r2 _ =>
    s1 == s2 &&
    (match l1, l2 with
     | none, none => true
     | some a, some b => structEq a b
     | _, _ => false) &&
    (match r1, r2 with
     | none, none => true
     | some a, some b => structEq a b
     | _, _ => false)

/-- Proper trees: every node is either a leaf (symbol set, no children)
or an internal node (no symbol, both children present).  Every tree the
Python code builds or consumes in the compression pipeline has this
shape; the `number` field is unconstrained. -/
inductive Proper : HNode → Prop where
  | leaf (s : Nat) (num : Option Int) : Proper (.mk (some s) none none num)
  | node (l r : HNode) (num : Option Int) :
      Proper l → Proper r → Proper (.mk none (some l) (some r) num)

/-- Number of internal nodes of a (proper) tree. -/
def internalCount : HNode → Nat
  | .mk _ (some l) (some r) _ => internalCount l + internalCount r + 1
  | _ => 0

/-- Internal-node depth: length of the longest chain of internal nodes. -/
def idepth : HNode → Nat
  | .mk _ (some l) (some r) _ => max (idepth l) (idepth r) + 1
  | _ => 0

/-- Leaf symbols in preorder (the order `get_codes` records them). -/
def leafSyms : HNode → List Nat
  | .mk s l r _ =>
    s.toList ++
    (match l with | none => [] | some a => leafSyms a) ++
    (match r with | none => [] | some a => leafSyms a)

/-- Erase every `number` field (numbers are the only field the
decompressor does not reconstruct). -/
def strip : HNode → HNode
  | .mk s none none _ => .mk s none none none
  | .mk s none (some b) _ => .mk s none (some (strip b)) none
  | .mk s (some a) none _ => .mk s (some (strip a)) none none
  | .mk s (some a) (some b) _ => .mk s (some (strip a)) (some (strip b)) none

/-- The `number` fields at the internal nodes, in postorder. -/
def internalNumsPost : HNode → List (Option Int)
  | .mk _ (some l) (some r) num =>
    internalNumsPost l ++ internalNumsPost r ++ [num]
  | _ => []

/-- The `number` fields at the leaf nodes, left to right. -/
def leafNums : HNode → List (Option Int)
  | .mk _ (some l) (some r) _ => leafNums l ++ leafNums r
  | .mk _ _ _ num => [num]

/-- Consecutive integers `n, n+1, ..., n+k-1`. -/
def intRange (n : Int) : Nat → List Int
  | 0 => []
  | k + 1 => n :: intRange (n + 1) k

-- ====================
-- Dicts as insertion-ordered association lists

/-- Python `d[k] = v`: update in place if the key exists, else append. -/
def dictSet {α β : Type} [DecidableEq α] : List (α × β) → α → β → List (α × β)
  | [], k, v => [(k, v)]
  | (k', v') :: rest, k, v =>
    if k' = k then (k, v) :: rest else (k', v') :: dictSet rest k v

/-- Python `d[k]` / `k in d`: lookup by key. -/
def dictGet {α β : Type} [DecidableEq α] : List (α × β) → α → Option β
  | [], _ => none
  | (k', v') :: rest, k => if k' = k then some v' else dictGet rest k

/-- Source `invert_dict`: `new_dict[value] = key` for each entry, in
iteration order (later duplicates overwrite earlier ones). -/
def invert_dict {α β : Type} [DecidableEq α] [DecidableEq β]
    (d : List (α × β)) : List (β × α) :=
  d.foldl (fun acc kv => dictSet acc kv.2 kv.1) []

-- ====================
-- Helper functions for manipulating bytes

/-- Source `get_bit`: bit number `bit_num` from the right in `byte`. -/
def get_bit (byte bit_num : Nat) : Nat :=
  (byte &&& (1 <<< bit_num)) >>> bit_num

/-- Source `byte_to_bits`: the 8 bits of a byte, most significant first
(the Python string of '0'/'1' characters becomes a `List Bool`). -/
def byte_to_bits (byte : Nat) : List Bool :=
  (List.range 8).map (fun i => get_bit byte (7 - i) == 1)

/-- Source `bits_to_byte`: `Σ bits[pos] << (7 - pos)`; fewer than 8 bits
are implicitly right-padded with zeros. -/
def bits_to_byte (bits : List Bool) : Nat :=
  (bits.enum).foldl (fun s pb => s + (cond pb.2 1 0) <<< (7 - pb.1)) 0

-- ====================
-- Functions for compression

/-- Source `make_freq_dict`: count occurrences of each byte, keys in
first-occurrence order (Python dicts preserve insertion order). -/
def make_freq_dict (text : List Nat) : List (Nat × Nat) :=
  text.foldl
    (fun d e =>
      match dictGet d e with
      | some c => dictSet d e (c + 1)
      | none => d ++ [(e, 1)])
    []

/-- The items handled by `huffman_tree`'s working list: the second
component of a working tuple is either a `HuffmanNode` or a nested pair
`((c1, i1), (c2, i2))` of two previously combined tuples. -/
inductive Item : Type where
  | node (t : HNode) : Item
  | pair (c1 : Nat) (i1 : Item) (c2 : Nat) (i2 : Item) : Item

/-- The recursion of `deduct_freq` on the second tuple component
(`node = tree[1]`): a `HuffmanNode` is returned as is, a nested pair
becomes an internal node of its deducted halves. -/
def deductItem : Item → HNode
  | .node n => n
  | .pair _ i1 _ i2 =>
    .mk none (some (deductItem i1)) (some (deductItem i2)) none

/-- Source `deduct_freq`: trim the frequency counters off a working
tuple, turning nested pairs into internal nodes (the counts in the
tuples are ignored). -/
def deduct_freq (tree : Nat × Item) : HNode := deductItem tree.2

/-- Stable insertion into a list sorted by ascending first component
(equal keys keep their original relative order, matching Python's
stable `list.sort`; ties between `(count, HuffmanNode)` tuples reduce
to the count because — modelled from the spec, the tie-break being an
implementation choice of the missing `nodes` module — node comparison
never orders two nodes strictly). -/
def insertByCount {β : Type} (x : Nat × β) : List (Nat × β) → List (Nat × β)
  | [] => [x]
  | y :: ys => if y.1 ≤ x.1 then y :: insertByCount x ys else x :: y :: ys

/-- Stable sort by ascending first component, used both for the initial
`tuples.sort()` of `sort_freq` and for `sorted_tup.sort(key=...)` inside
`huffman_tree`. -/
def sortByCount {β : Type} (l : List (Nat × β)) : List (Nat × β) :=
  l.foldl (fun acc x => insertByCount x acc) []

/-- Source `sort_freq`: turn the frequency dict into `(count, Leaf)`
tuples and sort them. -/
def sort_freq (freq : List (Nat × Nat)) : List (Nat × Item) :=
  sortByCount (freq.map (fun kv => (kv.2, Item.node (leafN kv.1))))

/-- Extract the `HuffmanNode` from an item.  `huffman_tree` only does
this when the frequency dict has exactly one key, in which case the item
is always a node; a `pair` here would be a Python type confusion, which
we map to `none`. -/
def itemAsNode : Item → Option HNode
  | .node t => some t
  | .pair _ _ _ _ => none

/-- The inner recursion `internal` of `huffman_tree`.  `flen` is
`len(freq_tup)`, fixed over the recursion.  The `sorted_tup == []` case
returns Python `None`; the compression pipeline then crashes in
`number_nodes`, so we collapse it to `none` as well.  Each merge step
shrinks the working list by one, which is why the Python recursion
terminates; the structural `fuel` parameter (the initial list length at
the call site) makes the same bound explicit. -/
def buildLoop (flen : Nat) : Nat → List (Nat × Item) → Option HNode
  | 0, _ => none
  | fuel + 1, lst =>
    if flen = 1 then
      match lst with
      | [] => none
      | it :: _ => itemAsNode it.2
    else
      match lst with
      | [] => none
      | [it] =>
        let i := deduct_freq it
        some (.mk none i.left i.right none)
      | _ :: _ :: _ =>
        match sortByCount lst with
        | a :: b :: rest =>
          buildLoop flen fuel (rest ++ [(a.1 + b.1, .pair a.1 a.2 b.1 b.2)])
        | _ => none

/-- Source `huffman_tree`: greedy weighted merge over the sorted tuple
list. -/
def huffman_tree (freq : List (Nat × Nat)) : Option HNode :=
  buildLoop freq.length (sort_freq freq).length (sort_freq freq)

/-- The inner traversal of `get_codes`: record `d[tree.symbol] = byte`
whenever `tree.symbol or tree.symbol == 0` (i.e. the symbol is not
`None`), then recurse left with '0' appended and right with '1'
appended.  `d` is threaded as the dict accumulator. -/
def get_codes_aux : HNode → List Bool → List (Nat × List Bool) → List (Nat × List Bool)
  | .mk s l r _, byte, d =>
    let d1 := match s with
      | some s0 => dictSet d s0 byte
      | none => d
    let d2 := match l with
      | none => d1
      | some a => get_codes_aux a (byte ++ [false]) d1
    match r with
    | none => d2
    | some a => get_codes_aux a (byte ++ [true]) d2

/-- Source `get_codes`: symbol → bitstring map from root-to-leaf paths. -/
def get_codes (t : HNode) : List (Nat × List Bool) :=
  get_codes_aux t [] []

/-- The inner pass `internal` of `number_nodes`: on a node with both
children missing return `n`; otherwise set `tree.number = n`, append `n`
to the shared list `l`, number the right subtree from `n + op` and feed
its return value to the left subtree.  A node with exactly one missing
child makes Python recurse into `None` and crash with
`AttributeError`, hence `none`.  Returns the updated tree, the
function's return value, and the values appended to `l` in order. -/
def nn_pass (op : Int) : HNode → Int → Option (HNode × Int × List Int)
  | .mk s none none num, n => some (.mk s none none num, n, [])
  | .mk s (some lt) (some rt) _, n => do
    let (rt', m, l1) ← nn_pass op rt (n + op)
    let (lt', m2, l2) ← nn_pass op lt m
    some (HNode.mk s (some lt') (some rt') (some n), m2, n :: (l1 ++ l2))
  | _, _ => none

/-- Source `number_nodes`: guard `(tree.left or tree.left == 0) and
(tree.right or tree.right == 0)` (a node is truthy and never equals the
int `0`, so this tests that both children are present); if it holds, run
the pass with `op = 1` from `0`, then again with `op = -1` from `l[-1]`.
The Python function returns `None` and mutates in place; we return the
final tree (unchanged when the guard fails). -/
def number_nodes (t : HNode) : Option HNode :=
  match t.left, t.right with
  | some _, some _ => do
    let (t1, _, l) ← nn_pass 1 t 0
    let last ← l.getLast?
    let (t2, _, _) ← nn_pass (-1) t1 last
    some t2
  | _, _ => some t

/-- Python `round(q, 2)` on the exact rational value: round half up to
two decimal places.  (CPython rounds the nearest double half-to-even;
on every value arising in this development the two agree, and no claim
depends on the behaviour at exact ties.) -/
def round2 (q : ℚ) : ℚ :=
  (⌊q * 100 + 1 / 2⌋ : ℚ) / 100

/-- Source `avg_length`: weighted average code length over `freq_dict`,
rounded to two decimals.  A symbol missing from `freq_dict` raises
`KeyError` and an empty code table divides by zero; both become `none`.
(The `if not tree` branch for a `None` tree is unreachable here since
`HNode` models a present node.) -/
def avg_length (t : HNode) (freq : List (Nat × Nat)) : Option ℚ := do
  let codes := get_codes t
  let sums_s ← codes.foldlM
    (fun (p : ℚ × ℚ) (kv : Nat × List Bool) => do
      let f ← dictGet freq kv.1
      pure (p.1 + (kv.2.length : ℚ) * (f : ℚ), p.2 + (f : ℚ)))
    ((0 : ℚ), (0 : ℚ))
  if sums_s.2 = 0 then none else some (round2 (sums_s.1 / sums_s.2))

/-- The full 8-bit groups taken by the first loop of
`generate_compressed` (applied to `comp_text[0:end_point]`, whose
length is a multiple of 8). -/
def chunkFull : List Bool → List (List Bool)
  | a :: b :: c :: d :: e :: f :: g :: h :: rest =>
    [a, b, c, d, e, f, g, h] :: chunkFull rest
  | _ => []

/-- Right-pad a final group to 8 bits with '0' bits, as the
`if len(comp_list[-1]) % 8 != 0` loop does. -/
def padTo8 (c : List Bool) : List Bool :=
  if c.length % 8 = 0 then c else c ++ List.replicate (8 - c.length) false

/-- Source `generate_compressed`: concatenate each symbol's code (a
missing symbol raises `KeyError`), split into 8-bit groups, right-pad
the last group, convert each group with `bits_to_byte`.  On an empty
concatenation `comp_list` stays empty and `comp_list[-1]` raises
`IndexError`, hence `none`.  (After the first loop, `stop` is
`end_point` when the loop ran and `0` otherwise; in both cases
`comp_text[stop:]` is `comp_text[end_point:]`.) -/
def generate_compressed (text : List Nat) (codes : List (Nat × List Bool)) :
    Option (List Nat) := do
  let comp_text ← text.foldlM
    (fun acc i => do
      let c ← dictGet codes i
      pure (acc ++ c))
    ([] : List Bool)
  let end_point := comp_text.length - comp_text.length % 8
  let remainder := comp_text.drop end_point
  let comp_list := chunkFull (comp_text.take end_point) ++
    (if remainder = [] then [] else [remainder])
  match comp_list.getLast? with
  | none => none
  | some last =>
    some ((comp_list.dropLast ++ [padTo8 last]).map bits_to_byte)

/-- A byte emitted by `bytes(...)`: must be an int in `[0, 256)`;
`None` (a missing `number`) raises `TypeError` and an out-of-range int
raises `ValueError`.  Since `bytes()` is applied to the fully built
list, fusing the checks into emission is observationally equivalent. -/
def emitByte (v : Int) : Option Nat :=
  if 0 ≤ v ∧ v < 256 then some v.toNat else none

/-- Source `tree_to_bytes` (the inner `internal` plus the final
`bytes(leaf_lst)` conversion).  A bare-leaf root emits a half record
`[0, symbol]`; otherwise each internal node contributes one 4-byte
record after the records of its internal children (postorder), a leaf
child as `(0, symbol)` and an internal child as `(1, child.number)`. -/
def tree_to_bytes : HNode → Option (List Nat)
  | .mk s none none _ => do
    let s0 ← s
    let b ← emitByte s0
    some [0, b]
  | .mk _ (some (.mk ls none none _)) (some (.mk rs none none _)) _ => do
    let ls0 ← ls
    let lb ← emitByte ls0
    let rs0 ← rs
    let rb ← emitByte rs0
    some [0, lb, 0, rb]
  | .mk _ (some (.mk ls none none _)) (some r) _ => do
    let rest ← tree_to_bytes r
    let ls0 ← ls
    let lb ← emitByte ls0
    let rn ← r.number
    let rb ← emitByte rn
    some (rest ++ [0, lb, 1, rb])
  | .mk _ (some l) (some (.mk rs none none _)) _ => do
    let rest ← tree_to_bytes l
    let ln ← l.number
    let lb ← emitByte ln
    let rs0 ← rs
    let rb ← emitByte rs0
    some (rest ++ [1, lb, 0, rb])
  | .mk _ (some l) (some r) _ => do
    let lres ← tree_to_bytes l
    let rres ← tree_to_bytes r
    let ln ← l.number
    let lb ← emitByte ln
    let rn ← r.number
    let rb ← emitByte rn
    some (lres ++ rres ++ [1, lb, 1, rb])
  | _ => none

/-- Source `num_nodes_to_bytes`: `bytes([tree.number + 1])`; an
unnumbered root raises `TypeError`. -/
def num_nodes_to_bytes (t : HNode) : Option (List Nat) := do
  let n ← t.number
  let b ← emitByte (n + 1)
  some [b]

/-- Source `size_to_bytes`: `size.to_bytes(4, "little")`; raises
`OverflowError` for sizes that do not fit in 4 bytes. -/
def size_to_bytes (size : Nat) : Option (List Nat) :=
  if size < 2 ^ 32 then
    some [size % 256, size / 256 % 256, size / 2 ^ 16 % 256, size / 2 ^ 24 % 256]
  else none

-- ====================
-- Functions for decompression

/-- Modelled from the spec: the `SerializedNodeRecord` of §3 (the Python
`ReadNode` of the missing `nodes` module): a 4-field record
`(l_type, l_data, r_type, r_data)`. -/
structure ReadNode : Type where
  l_type : Nat
  l_data : Nat
  r_type : Nat
  r_data : Nat
deriving DecidableEq

/-- Source `bytes_to_nodes`: read 4-byte groups; a trailing partial
group makes `buf[i+1]`/`buf[i+2]`/`buf[i+3]` raise `IndexError`. -/
def bytes_to_nodes : List Nat → Option (List ReadNode)
  | [] => some []
  | a :: b :: c :: d :: rest => do
    let l ← bytes_to_nodes rest
    some (ReadNode.mk a b c d :: l)
  | _ => none

/-- A child slot of a record, as built by `helper_generate_tree`: type
`0` gives `HuffmanNode(data)` (a leaf), any other type gives a
placeholder `HuffmanNode()` with `number = data`. -/
def childNode (ty data : Nat) : HNode :=
  if ty = 0 then .mk (some data) none none none
  else .mk none none none (some (data : Int))

/-- The `HuffmanNode(None, left, right)` built for one record. -/
def nodeOfRec (e : ReadNode) : HNode :=
  .mk none (some (childNode e.l_type e.l_data))
    (some (childNode e.r_type e.r_data)) none

/-- Source `helper_generate_tree`: one `HuffmanNode(None, left, right)`
per record, children leaves or numbered placeholders. -/
def helper_generate_tree (node_lst : List ReadNode) : List HNode :=
  node_lst.map nodeOfRec

/-- Python `lst[i]` for a list of nodes; `i` out of range raises
`IndexError`.  (A negative index would wrap in Python; indices here
come from byte data and are never negative.) -/
def intIndex (lst : List HNode) (n : Int) : Option HNode :=
  if 0 ≤ n then lst.get? n.toNat else none

/-- Source `duplicate_node` in `generate_tree_general`:
`HuffmanNode(None, node.left, node.right)`. -/
def duplicate_node (t : HNode) : HNode := .mk none t.left t.right none

/-- The inner `create_tree` of `generate_tree_general`: a node with a
symbol is returned as is; otherwise each child whose `symbol is None`
is replaced by a duplicate of `huffman_lst[child.number]`, then both
children are resolved recursively (right first, which is immaterial
here).  The Python recursion is unbounded (a cyclic reference list
recurses forever); `fuel` bounds it, and callers pass more fuel than
any terminating Python run needs. -/
def create_tree (lst : List HNode) : Nat → HNode → Option HNode
  | 0, _ => none
  | fuel + 1, t =>
    if t.symbol.isSome then some t
    else
      Option.bind t.left (fun l =>
      Option.bind t.right (fun r =>
      Option.bind
        (if l.symbol.isSome then some l
         else Option.bind l.number (fun n =>
           Option.bind (intIndex lst n) (fun nd =>
             some (duplicate_node nd))))
        (fun lNew =>
      Option.bind
        (if r.symbol.isSome then some r
         else Option.bind r.number (fun n =>
           Option.bind (intIndex lst n) (fun nd =>
             some (duplicate_node nd))))
        (fun rNew =>
      Option.bind (create_tree lst fuel rNew) (fun rDone =>
      Option.bind (create_tree lst fuel lNew) (fun lDone =>
      some (HNode.mk t.symbol (some lDone) (some rDone) t.number)))))))

/-- Source `generate_tree_general`: build the helper list, duplicate the
root record's node, resolve all placeholders. -/
def generate_tree_general (node_lst : List ReadNode) (root_index : Nat) :
    Option HNode := do
  let huffman_lst := helper_generate_tree node_lst
  let nd ← huffman_lst.get? root_index
  create_tree huffman_lst (huffman_lst.length + 1) (duplicate_node nd)

/-- Python truthiness of a `symbol` field as used by
`generate_tree_postorder`'s `not tree.left.symbol`: `None` and the int
`0` are falsy, every other int is truthy.  (Note the contrast with
`generate_tree_general`, which correctly tests `is None`.) -/
def pyFalsySym (o : Option Nat) : Bool :=
  match o with
  | none => true
  | some 0 => true
  | some _ => false

/-- The inner `traversal` of `generate_tree_postorder`, with the
mutable `huffman_lst` threaded as state.  If the list is non-empty at
entry, a falsy-symbol left child is replaced by `huffman_lst.pop(0)`
(recursing into it if the list is still non-empty and the popped node
has a falsy-symbol child); then the same for the right child — whose
`pop(0)` is *not* re-guarded, so it raises `IndexError` when the left
phase consumed the last record.  `fuel` bounds the recursion as in
`create_tree`. -/
def traversal (fuel : Nat) (t : HNode) (lst : List HNode) :
    Option (HNode × List HNode) :=
  match fuel with
  | 0 => none
  | fuel + 1 =>
    match lst with
    | [] => some (t, lst)
    | _ :: _ => do
      let l ← t.left
      let r ← t.right
      let (lNew, lst1) ←
        if pyFalsySym l.symbol then
          match lst with
          | [] => none
          | a :: rest =>
            match rest with
            | [] => some (a, rest)
            | _ :: _ => do
              let al ← a.left
              let ar ← a.right
              if pyFalsySym al.symbol || pyFalsySym ar.symbol then
                traversal fuel a rest
              else some (a, rest)
        else some (l, lst)
      let (rNew, lst2) ←
        if pyFalsySym r.symbol then
          match lst1 with
          | [] => none
          | b :: rest =>
            match rest with
            | [] => some (b, rest)
            | _ :: _ => do
              let bl ← b.left
              let br ← b.right
              if pyFalsySym bl.symbol || pyFalsySym br.symbol then
                traversal fuel b rest
              else some (b, rest)
        else some (r, lst1)
      some (HNode.mk t.symbol (some lNew) (some rNew) t.number, lst2)

/-- Source `generate_tree_postorder`: pop the root record, then run the
traversal.  `pop(root_index)` raises `IndexError` when the index is out
of range. -/
def generate_tree_postorder (node_lst : List ReadNode) (root_index : Nat) :
    Option HNode := do
  let huffman_lst := helper_generate_tree node_lst
  let t ← huffman_lst.get? root_index
  let rest := huffman_lst.eraseIdx root_index
  let res ← traversal (huffman_lst.length + 2) t rest
  some res.1

/-- The bit-scanning loop of `generate_uncompressed`: append each bit to
the candidate `new_bit`; on a dict hit emit the symbol, reset the
candidate, and return as soon as `size` symbols are out; after the last
bit return whatever has been accumulated. -/
def scanBits (inv : List (List Bool × Nat)) :
    List Bool → List Bool → List Nat → Nat → List Nat
  | [], _, out, _ => out
  | b :: bs, acc, out, size =>
    let nb := acc ++ [b]
    match dictGet inv nb with
    | some v =>
      let out2 := out ++ [v]
      if out2.length = size then out2 else scanBits inv bs [] out2 size
    | none => scanBits inv bs nb out size

/-- Source `generate_uncompressed`: invert the code table, expand the
payload into bits (MSB first), scan greedily.  Note that exhausting the
bits before reaching `size` symbols returns the partial list normally —
there is no failure path. -/
def generate_uncompressed (tree : HNode) (text : List Nat) (size : Nat) :
    List Nat :=
  let codes := invert_dict (get_codes tree)
  let one_bit := text.foldl (fun acc byte => acc ++ byte_to_bits byte) []
  scanBits codes one_bit [] [] size

/-- Source `bytes_to_size`: `int.from_bytes(buf, "little")`. -/
def bytes_to_size (buf : List Nat) : Nat :=
  buf.foldr (fun b acc => b + 256 * acc) 0

-- ====================
-- The compression / decompression pipelines (file I/O stripped)

/-- Source `compress`, with the file reads/writes and the
`print` stripped: the in-memory transformation from the raw byte buffer
to the compressed artifact.  `avg_length` is still evaluated because the
`print` call can raise. -/
def compress (text : List Nat) : Option (List Nat) := do
  let freq := make_freq_dict text
  let tree ← huffman_tree freq
  let codes := get_codes tree
  let tree2 ← number_nodes tree
  let _ ← avg_length tree2 freq
  let nn ← num_nodes_to_bytes tree2
  let tb ← tree_to_bytes tree2
  let sz ← size_to_bytes text.length
  let payload ← generate_compressed text codes
  some (nn ++ tb ++ sz ++ payload)

/-- Source `uncompress`, with the file reads/writes stripped: the
in-memory transformation from the artifact back to a byte buffer.
The sequential `f.read` calls become `take`/`drop` at the matching
offsets.  (For `num_nodes = 0` Python's `num_nodes - 1` would wrap to a
negative index into an empty helper list and raise `IndexError`; the
model's `Nat` subtraction reaches `none` through the same failing
lookup.) -/
def uncompress (data : List Nat) : Option (List Nat) := do
  let num_nodes ← data.get? 0
  let buf := (data.drop 1).take (num_nodes * 4)
  let node_lst ← bytes_to_nodes buf
  let tree ← generate_tree_general node_lst (num_nodes - 1)
  let size := bytes_to_size ((data.drop (1 + num_nodes * 4)).take 4)
  let text := data.drop (5 + num_nodes * 4)
  some (generate_uncompressed tree text size)

-- ====================
-- Other functions

/-- Stable insertion into a list sorted by descending lexicographic
order on `(value, key)` pairs, matching `l.sort(reverse=True)` (all
pairs are distinct in use, so tie handling is irrelevant). -/
def insertDesc (x : Nat × Nat) : List (Nat × Nat) → List (Nat × Nat)
  | [] => [x]
  | y :: ys =>
    if x.1 < y.1 ∨ (x.1 = y.1 ∧ x.2 ≤ y.2) then y :: insertDesc x ys
    else x :: y :: ys

/-- Python `l.sort(reverse=True)` for `(value, key)` pairs. -/
def sortDesc (l : List (Nat × Nat)) : List (Nat × Nat) :=
  l.foldl (fun acc x => insertDesc x acc) []

/-- Python `lst.index(v)`: index of the first occurrence. -/
def indexOf (v : Nat) : List Nat → Option Nat
  | [] => none
  | a :: rest => if a = v then some 0 else (indexOf v rest).map (· + 1)

/-- Ascending insertion sort for `il.sort()`. -/
def insertAsc (x : Nat) : List Nat → List Nat
  | [] => [x]
  | y :: ys => if y ≤ x then y :: insertAsc x ys else x :: y :: ys

/-- Python `il.sort()`. -/
def sortAsc (l : List Nat) : List Nat :=
  l.foldl (fun acc x => insertAsc x acc) []

/-- The assignment loop `byte[il[index]] = l[index][1]`. -/
def writeAll (byte : List Nat) (il : List Nat) (vals : List Nat) : List Nat :=
  (il.zip vals).foldl (fun b iv => b.set iv.1 iv.2) byte

/-- Source `improve_tree`: serialize the tree to its flat byte list,
sort `(freq, symbol)` pairs descending, find each symbol's first index
in the flat byte list (kind markers and node numbers included!), sort
those indices ascending, overwrite them pairwise with the symbols in
descending-frequency order, rebuild via `bytes_to_nodes` +
`generate_tree_postorder`, evaluate both average lengths (the unused
tuple `t` — its computation can still raise), and graft the new
children onto the original root. -/
def improve_tree (tree : HNode) (freq_dict : List (Nat × Nat)) :
    Option HNode := do
  let byte ← tree_to_bytes tree
  let l := sortDesc (freq_dict.map (fun kv => (kv.2, kv.1)))
  let il := l.filterMap (fun i => indexOf i.2 byte)
  let il := sortAsc il
  let byte := writeAll byte il (l.map (fun p => p.2))
  let n ← bytes_to_nodes byte
  let new_tree ← generate_tree_postorder n (n.length - 1)
  let _ ← avg_length tree freq_dict
  let _ ← avg_length new_tree freq_dict
  some (HNode.mk tree.symbol new_tree.left new_tree.right tree.number)

-- ====================
-- Specification-side notions used to state and prove the claims

/-- Follow a root-to-leaf path: `false` descends left, `true` right. -/
def follow : HNode → List Bool → Option HNode
  | t, [] => some t
  | t, b :: bs =>
    match (if b then t.right else t.left) with
    | none => none
    | some c => follow c bs

/-- The code list of a proper tree as a plain preorder list (no dict
overwriting): what `get_codes` produces when all leaf symbols are
distinct. -/
def codesPlain : HNode → List Bool → List (Nat × List Bool)
  | .mk s l r _, byte =>
    (match s with | some s0 => [(s0, byte)] | none => []) ++
    (match l with | none => [] | some a => codesPlain a (byte ++ [false])) ++
    (match r with | none => [] | some a => codesPlain a (byte ++ [true]))

/-- Record field: child kind (0 leaf, 1 internal). -/
def kindOf (n : HNode) : Nat := if n.is_leaf then 0 else 1

/-- Record field: child data (leaf symbol, or internal node number). -/
def dataOf (n : HNode) : Nat :=
  if n.is_leaf then n.symbol.getD 0 else (n.number.getD 0).toNat

/-- The record a parent emits for its two children. -/
def mkRec (l r : HNode) : ReadNode :=
  ReadNode.mk (kindOf l) (dataOf l) (kindOf r) (dataOf r)

/-- The postorder record list of a proper tree (one record per internal
node). -/
def recsOf : HNode → List ReadNode
  | .mk _ (some l) (some r) _ => recsOf l ++ recsOf r ++ [mkRec l r]
  | _ => []

/-- Flatten records back to bytes, 4 per record. -/
def flattenRecs (rs : List ReadNode) : List Nat :=
  rs.flatMap (fun e => [e.l_type, e.l_data, e.r_type, e.r_data])

/-- Postorder numbering predicate: `Numbered t n0` says the internal
nodes of `t` carry the numbers `n0, n0+1, ...` in postorder (left
subtree, right subtree, self), the root carrying
`n0 + internalCount t - 1`. -/
inductive Numbered : HNode → Int → Prop where
  | leaf (s : Nat) (num : Option Int) (n0 : Int) :
      Numbered (.mk (some s) none none num) n0
  | node (l r : HNode) (n0 : Int) :
      Numbered l n0 → Numbered r (n0 + internalCount l) →
      Numbered (.mk none (some l) (some r)
        (some (n0 + internalCount l + internalCount r))) n0

/-- Every internal node of `t` can be found in the record list `R` at
the index given by its own `number`, holding the record of its
children.  This is the invariant that drives `create_tree`. -/
inductive RecsIndexed (R : List ReadNode) : HNode → Prop where
  | leaf (s : Nat) (num : Option Int) :
      RecsIndexed R (.mk (some s) none none num)
  | node (l r : HNode) (m : Int) :
      0 ≤ m → R.get? m.toNat = some (mkRec l r) →
      RecsIndexed R l → RecsIndexed R r →
      RecsIndexed R (.mk none (some l) (some r) (some m))

/-- All leaf symbols are below `b`. -/
def symsLT (t : HNode) (b : Nat) : Prop := ∀ s ∈ leafSyms t, s < b

/-- Every internal node's number is a byte value. -/
def numsOK : HNode → Prop
  | .mk _ (some l) (some r) num =>
    (∃ m : Int, num = some m ∧ 0 ≤ m ∧ m < 256) ∧ numsOK l ∧ numsOK r
  | _ => True

/-- Properness of a working item: a `node` item holds a proper tree (in
use, always a leaf), a `pair` item holds two proper items. -/
inductive ItemProper : Item → Prop where
  | node (t : HNode) : Proper t → ItemProper (.node t)
  | pair (c1 : Nat) (i1 : Item) (c2 : Nat) (i2 : Item) :
      ItemProper i1 → ItemProper i2 → ItemProper (.pair c1 i1 c2 i2)

/-- Leaf symbols carried by a working item. -/
def itemSyms : Item → List Nat
  | .node t => leafSyms t
  | .pair _ i1 _ i2 => itemSyms i1 ++ itemSyms i2

/-- All leaf symbols carried by a working list. -/
def symsOfList (lst : List (Nat × Item)) : List Nat :=
  (lst.map (fun p => itemSyms p.2)).flatten

/-- The concatenation of the codes of a symbol sequence: the `comp_text`
bitstring accumulated by `generate_compressed` (a missing symbol
contributes nothing; in use every symbol is present). -/
def catCodes (codes : List (Nat × List Bool)) : List Nat → List Bool
  | [] => []
  | b :: bs => (dictGet codes b).getD [] ++ catCodes codes bs

/-- The bit expansion of a byte sequence, as the decompressor's
`one_bit` loop computes it. -/
def bitsOf (bytes : List Nat) : List Bool :=
  bytes.foldl (fun acc byte => acc ++ byte_to_bits byte) []

-- ====================
-- Concrete inputs used by the counterexample / failing-input theorems

/-- The depth-3 left chain `N(N(N(L1, L2), L3), L4)`, whose postorder
serialization defeats `generate_tree_postorder`. -/
def exT3 : HNode := nodeN (nodeN (nodeN (leafN 1) (leafN 2)) (leafN 3)) (leafN 4)

/-- The numbered tree `N(N(L1, L2)#0, L3)#1`. -/
def exT6 : HNode :=
  .mk none (some (.mk none (some (leafN 1)) (some (leafN 2)) (some 0)))
    (some (leafN 3)) (some 1)

/-- Frequencies `1 ↦ 1, 2 ↦ 1, 3 ↦ 10`: the rare symbols sit on the
short codes, so a genuine optimizer would improve this tree. -/
def exF6 : List (Nat × Nat) := [(1, 1), (2, 1), (3, 10)]

/-- Frequencies for the `exT3` tree, already optimally assigned. -/
def exF7 : List (Nat × Nat) := [(1, 4), (2, 3), (3, 2), (4, 1)]

/-- A minimal two-leaf tree. -/
def exPair : HNode := nodeN (leafN 1) (leafN 2)

/-- What `improve_tree exT6 exF6` actually returns: symbol 3 (the most
frequent) has been moved to the deepest leaf. -/
def exT6imp : HNode :=
  .mk none (some (.mk none (some (leafN 3)) (some (leafN 2)) none))
    (some (leafN 1)) (some 1)

/-- `exT3` after the numbering pass. -/
def exT3n : HNode :=
  .mk none
    (some (.mk none
      (some (.mk none (some (leafN 1)) (some (leafN 2)) (some 0)))
      (some (leafN 3)) (some 1)))
    (some (leafN 4)) (some 2)

/-- What `improve_tree exT3n exF7` actually returns: an internal node
and the leaf with symbol 3 have vanished. -/
def exT3imp : HNode :=
  .mk none (some (.mk none (some (leafN 1)) (some (leafN 2)) none))
    (some (leafN 4)) (some 2)

-- ====================
-- Theorems
-- ====================

-- Generic association-list lemmas

theorem dictSet_fresh {α β : Type} [DecidableEq α] (d : List (α × β)) (k : α)
    (v : β) (h : k ∉ d.map Prod.fst) : dictSet d k v = d ++ [(k, v)] := by
  induction d with
  | nil => rfl
  | cons p rest ih =>
    simp only [List.map_cons, List.mem_cons] at h
    push_neg at h
    simp only [dictSet]
    rw [if_neg (fun he => h.1 he.symm), ih h.2]
    simp

theorem dictGet_append_left {α β : Type} [DecidableEq α] (d1 d2 : List (α × β))
    (k : α) (h : k ∉ d1.map Prod.fst) :
    dictGet (d1 ++ d2) k = dictGet d2 k := by
  induction d1 with
  | nil => rfl
  | cons p rest ih =>
    simp only [List.map_cons, List.mem_cons] at h
    push_neg at h
    simp only [List.cons_append, dictGet]
    rw [if_neg (fun he => h.1 he.symm)]
    exact ih h.2

theorem dictGet_mem {α β : Type} [DecidableEq α] (d : List (α × β)) (k : α)
    (v : β) (hk : (d.map Prod.fst).Nodup) (hm : (k, v) ∈ d) :
    dictGet d k = some v := by
  induction d with
  | nil => simp at hm
  | cons p rest ih =>
    simp only [List.map_cons, List.nodup_cons] at hk
    rcases List.mem_cons.mp hm with he | hm2
    · subst he
      simp [dictGet]
    · have hne : p.1 ≠ k := by
        intro he
        exact hk.1 (he ▸ (List.mem_map.mpr ⟨(k, v), hm2, rfl⟩))
      simp only [dictGet]
      rw [if_neg hne]
      exact ih hk.2 hm2

theorem dictGet_some_mem_keys {α β : Type} [DecidableEq α] (d : List (α × β))
    (k : α) (v : β) (h : dictGet d k = some v) : k ∈ d.map Prod.fst := by
  induction d with
  | nil => simp [dictGet] at h
  | cons p rest ih =>
    simp only [dictGet] at h
    by_cases he : p.1 = k
    · simp [he]
    · rw [if_neg he] at h
      simp [ih h]

theorem dictGet_mem_pair {α β : Type} [DecidableEq α] (d : List (α × β))
    (k : α) (v : β) (h : dictGet d k = some v) : (k, v) ∈ d := by
  induction d with
  | nil => simp [dictGet] at h
  | cons p rest ih =>
    simp only [dictGet] at h
    by_cases he : p.1 = k
    · rw [if_pos he] at h
      obtain ⟨p1, p2⟩ := p
      simp only [Option.some.injEq] at h
      subst h
      simp only at he
      subst he
      exact List.mem_cons_self _ _
    · rw [if_neg he] at h
      exact List.mem_cons_of_mem _ (ih h)

theorem dictSet_mem {α β : Type} [DecidableEq α] (d : List (α × β)) (k : α)
    (v : β) (p : α × β) (h : p ∈ dictSet d k v) : p ∈ d ∨ p = (k, v) := by
  induction d with
  | nil => simpa [dictSet] using h
  | cons q rest ih =>
    simp only [dictSet] at h
    split at h
    · rcases List.mem_cons.mp h with he | hm
      · exact Or.inr he
      · exact Or.inl (List.mem_cons_of_mem _ hm)
    · rcases List.mem_cons.mp h with he | hm
      · exact Or.inl (he ▸ List.mem_cons_self _ _)
      · rcases ih hm with h1 | h2
        · exact Or.inl (List.mem_cons_of_mem _ h1)
        · exact Or.inr h2

theorem dictSet_keys {α β : Type} [DecidableEq α] (d : List (α × β)) (k : α)
    (v : β) (h : k ∈ d.map Prod.fst) :
    (dictSet d k v).map Prod.fst = d.map Prod.fst := by
  induction d with
  | nil => simp at h
  | cons q rest ih =>
    simp only [dictSet]
    by_cases he : q.1 = k
    · rw [if_pos he]
      simp [he]
    · rw [if_neg he]
      simp only [List.map_cons, List.mem_cons] at h
      rcases h with h1 | h2
      · exact absurd h1.symm he
      · simp [ih h2]

theorem dictGet_none_not_mem {α β : Type} [DecidableEq α] (d : List (α × β))
    (k : α) (h : dictGet d k = none) : k ∉ d.map Prod.fst := by
  induction d with
  | nil => simp
  | cons q rest ih =>
    simp only [dictGet] at h
    by_cases he : q.1 = k
    · rw [if_pos he] at h
      exact Option.noConfusion h
    · rw [if_neg he] at h
      simp only [List.map_cons, List.mem_cons]
      push_neg
      exact ⟨fun h1 => he h1.symm, ih h⟩

theorem dictGet_isSome_of_mem {α β : Type} [DecidableEq α]
    (d : List (α × β)) (k : α) (h : k ∈ d.map Prod.fst) :
    ∃ v, dictGet d k = some v := by
  cases hg : dictGet d k with
  | none => exact absurd h (dictGet_none_not_mem d k hg)
  | some v => exact ⟨v, rfl⟩

/-- The invariant of `make_freq_dict`'s fold: distinct keys, positive
counts, and the keys are the starting keys plus the scanned symbols. -/
theorem make_freq_dict_fold (text : List Nat) :
    ∀ d : List (Nat × Nat), (d.map Prod.fst).Nodup →
      (∀ kc ∈ d, 1 ≤ kc.2) →
      ((text.foldl
          (fun d e =>
            match dictGet d e with
            | some c => dictSet d e (c + 1)
            | none => d ++ [(e, 1)]) d).map Prod.fst).Nodup ∧
      (∀ kc ∈ text.foldl
          (fun d e =>
            match dictGet d e with
            | some c => dictSet d e (c + 1)
            | none => d ++ [(e, 1)]) d, 1 ≤ kc.2) ∧
      (∀ k, k ∈ (text.foldl
          (fun d e =>
            match dictGet d e with
            | some c => dictSet d e (c + 1)
            | none => d ++ [(e, 1)]) d).map Prod.fst ↔
        k ∈ d.map Prod.fst ∨ k ∈ text) := by
  induction text with
  | nil =>
    intro d hnd hpos
    exact ⟨hnd, hpos, fun k => by simp⟩
  | cons e rest ih =>
    intro d hnd hpos
    simp only [List.foldl_cons]
    cases hg : dictGet d e with
    | some c =>
      have hke : e ∈ d.map Prod.fst := dictGet_some_mem_keys d e c hg
      have hkeys : (dictSet d e (c + 1)).map Prod.fst = d.map Prod.fst :=
        dictSet_keys d e (c + 1) hke
      obtain ⟨h1, h2, h3⟩ := ih (dictSet d e (c + 1)) (hkeys ▸ hnd)
        (fun kc hkc => by
          rcases dictSet_mem d e (c + 1) kc hkc with hm | he
          · exact hpos kc hm
          · rw [he]; omega)
      refine ⟨h1, h2, fun k => ?_⟩
      rw [h3 k, hkeys]
      constructor
      · rintro (hk | hk)
        · exact Or.inl hk
        · exact Or.inr (List.mem_cons_of_mem _ hk)
      · rintro (hk | hk)
        · exact Or.inl hk
        · rcases List.mem_cons.mp hk with he | hk2
          · exact Or.inl (he ▸ hke)
          · exact Or.inr hk2
    | none =>
      have hke : e ∉ d.map Prod.fst := dictGet_none_not_mem d e hg
      have hkeys : (d ++ [(e, 1)]).map Prod.fst = d.map Prod.fst ++ [e] := by
        simp
      obtain ⟨h1, h2, h3⟩ := ih (d ++ [(e, 1)])
        (by
          rw [hkeys]
          exact List.Nodup.append hnd (List.nodup_singleton e)
            (by simpa using hke))
        (fun kc hkc => by
          rcases List.mem_append.mp hkc with hm | hm
          · exact hpos kc hm
          · simp only [List.mem_singleton] at hm
            rw [hm])
      refine ⟨h1, h2, fun k => ?_⟩
      rw [h3 k, hkeys]
      simp only [List.mem_append, List.mem_singleton, List.mem_cons]
      tauto

theorem make_freq_dict_keys_nodup (text : List Nat) :
    ((make_freq_dict text).map Prod.fst).Nodup :=
  (make_freq_dict_fold text [] (by simp) (by simp)).1

theorem make_freq_dict_pos (text : List Nat) :
    ∀ kc ∈ make_freq_dict text, 1 ≤ kc.2 :=
  (make_freq_dict_fold text [] (by simp) (by simp)).2.1

theorem make_freq_dict_keys_mem (text : List Nat) (k : Nat) :
    k ∈ (make_freq_dict text).map Prod.fst ↔ k ∈ text := by
  have := (make_freq_dict_fold text [] (by simp) (by simp)).2.2 k
  simpa [make_freq_dict] using this

theorem two_mem_length {α : Type} (l : List α) (a b : α) (ha : a ∈ l)
    (hb : b ∈ l) (hab : a ≠ b) : 2 ≤ l.length := by
  match l with
  | [] => simp at ha
  | [x] =>
    simp only [List.mem_singleton] at ha hb
    exact absurd (ha.trans hb.symm) hab
  | _ :: _ :: _ => simp [Nat.le_add_left]

theorem nodup_lt_256_length (l : List Nat) (hnd : l.Nodup)
    (hlt : ∀ x ∈ l, x < 256) : l.length ≤ 256 := by
  have hcard : l.toFinset.card = l.length := List.toFinset_card_of_nodup hnd
  have hsub : l.toFinset ⊆ Finset.range 256 := by
    intro x hx
    exact Finset.mem_range.mpr (hlt x (List.mem_toFinset.mp hx))
  have := Finset.card_le_card hsub
  rw [hcard, Finset.card_range] at this
  exact this

-- Stable-sort permutation lemmas

theorem insertByCount_perm {β : Type} (x : Nat × β) (l : List (Nat × β)) :
    List.Perm (insertByCount x l) (x :: l) := by
  induction l with
  | nil => rfl
  | cons y ys ih =>
    simp only [insertByCount]
    split
    · exact ((ih.cons y).trans (List.Perm.swap x y ys))
    · rfl

theorem sortByCount_foldl_perm {β : Type} (l acc : List (Nat × β)) :
    List.Perm (l.foldl (fun acc x => insertByCount x acc) acc) (acc ++ l) := by
  induction l generalizing acc with
  | nil => simp
  | cons y ys ih =>
    simp only [List.foldl_cons]
    refine (ih (insertByCount y acc)).trans ?_
    have h1 : List.Perm (insertByCount y acc ++ ys) ((y :: acc) ++ ys) :=
      (insertByCount_perm y acc).append_right ys
    refine h1.trans ?_
    simp only [List.cons_append]
    exact List.perm_middle.symm

theorem sortByCount_perm {β : Type} (l : List (Nat × β)) :
    List.Perm (sortByCount l) l := by
  simpa using sortByCount_foldl_perm l []

theorem sortByCount_length' {β : Type} (l : List (Nat × β)) :
    (sortByCount l).length = l.length :=
  (sortByCount_perm l).length_eq

-- Code-table lemmas: `get_codes` on proper trees with distinct leaf
-- symbols is the plain preorder path list, whose codes are prefix-free.

theorem keys_codesPlain (t : HNode) (hp : Proper t) :
    ∀ pre, (codesPlain t pre).map Prod.fst = leafSyms t := by
  induction hp with
  | leaf s num => intro pre; simp [codesPlain, leafSyms]
  | node l r num hl hr ihl ihr =>
    intro pre
    simp [codesPlain, leafSyms, ihl, ihr]

theorem get_codes_aux_plain (t : HNode) (hp : Proper t) :
    ∀ pre d, (∀ s ∈ leafSyms t, s ∉ d.map Prod.fst) →
      (leafSyms t).Nodup →
      get_codes_aux t pre d = d ++ codesPlain t pre := by
  induction hp with
  | leaf s num =>
    intro pre d hfresh _
    simp only [get_codes_aux, codesPlain]
    rw [dictSet_fresh d s pre (hfresh s (by simp [leafSyms]))]
    simp
  | node l r num hl hr ihl ihr =>
    intro pre d hfresh hnodup
    have hsyms : leafSyms (HNode.mk none (some l) (some r) num) =
        leafSyms l ++ leafSyms r := by simp [leafSyms]
    rw [hsyms] at hfresh hnodup
    have hnl := (List.nodup_append.mp hnodup).1
    have hnr := (List.nodup_append.mp hnodup).2.1
    have hdisj := (List.nodup_append.mp hnodup).2.2
    simp only [get_codes_aux, codesPlain]
    rw [ihl (pre ++ [false]) d (fun s hs => hfresh s (by simp [hs])) hnl]
    rw [ihr (pre ++ [true]) (d ++ codesPlain l (pre ++ [false]))
      (fun s hs => by
        rw [List.map_append, keys_codesPlain l hl]
        intro hmem
        rcases List.mem_append.mp hmem with h1 | h2
        · exact hfresh s (by simp [hs]) h1
        · exact hdisj h2 hs) hnr]
    simp

theorem get_codes_eq_plain (t : HNode) (hp : Proper t)
    (hnodup : (leafSyms t).Nodup) : get_codes t = codesPlain t [] := by
  have := get_codes_aux_plain t hp [] [] (by simp) hnodup
  simpa [get_codes] using this

theorem follow_append (t : HNode) (d1 d2 : List Bool) :
    follow t (d1 ++ d2) = (follow t d1).bind (fun u => follow u d2) := by
  induction d1 generalizing t with
  | nil => simp [follow]
  | cons b bs ih =>
    simp only [List.cons_append, follow]
    cases hb : (if b then t.right else t.left) with
    | none => simp
    | some c => simp [ih c]

theorem codesPlain_mem (t : HNode) (hp : Proper t) :
    ∀ pre s c, (s, c) ∈ codesPlain t pre →
      ∃ d, c = pre ++ d ∧
        ∃ num, follow t d = some (.mk (some s) none none num) := by
  induction hp with
  | leaf s0 num =>
    intro pre s c hm
    simp only [codesPlain, List.append_nil, List.mem_cons] at hm
    rcases hm with hm | hm
    · obtain ⟨h1, h2⟩ := Prod.mk.injEq .. ▸ hm
      cases hm
      refine ⟨[], by simp, num, ?_⟩
      simp [follow]
    · simp at hm
  | node l r num hl hr ihl ihr =>
    intro pre s c hm
    simp only [codesPlain, List.nil_append, List.mem_append] at hm
    rcases hm with hm | hm
    · obtain ⟨d, hd, num', hf⟩ := ihl (pre ++ [false]) s c hm
      refine ⟨false :: d, by simp [hd], num', ?_⟩
      simpa [follow] using hf
    · obtain ⟨d, hd, num', hf⟩ := ihr (pre ++ [true]) s c hm
      refine ⟨true :: d, by simp [hd], num', ?_⟩
      simpa [follow] using hf

theorem follow_leaf_cons (s : Nat) (num : Option Int) (b : Bool)
    (bs : List Bool) :
    follow (.mk (some s) none none num) (b :: bs) = none := by
  cases b <;> simp [follow, HNode.left, HNode.right]

theorem codes_prefix_free (t : HNode) (hp : Proper t) (s1 s2 : Nat)
    (c1 c2 : List Bool) (h1 : (s1, c1) ∈ codesPlain t [])
    (h2 : (s2, c2) ∈ codesPlain t []) (hne : s1 ≠ s2) : ¬ c1 <+: c2 := by
  intro hpre
  obtain ⟨d1, hd1, num1, hf1⟩ := codesPlain_mem t hp [] s1 c1 h1
  obtain ⟨d2, hd2, num2, hf2⟩ := codesPlain_mem t hp [] s2 c2 h2
  simp only [List.nil_append] at hd1 hd2
  subst hd1 hd2
  obtain ⟨e, he⟩ := hpre
  subst he
  rcases e with _ | ⟨b0, bs0⟩
  · simp only [List.append_nil] at hf2
    rw [hf1] at hf2
    simp only [Option.some.injEq, HNode.mk.injEq] at hf2
    exact hne hf2.1
  · rw [follow_append, hf1] at hf2
    simp only [Option.some_bind] at hf2
    rw [follow_leaf_cons] at hf2
    exact Option.noConfusion hf2

theorem strip_proper (t : HNode) (hp : Proper t) : Proper (strip t) := by
  induction hp with
  | leaf s num => exact Proper.leaf s none
  | node l r num hl hr ihl ihr => exact Proper.node _ _ _ ihl ihr

theorem codesPlain_strip (t : HNode) (hp : Proper t) :
    ∀ pre, codesPlain (strip t) pre = codesPlain t pre := by
  induction hp with
  | leaf s num => intro pre; rfl
  | node l r num hl hr ihl ihr =>
    intro pre
    show codesPlain (HNode.mk none (some (strip l)) (some (strip r)) none)
      pre = _
    simp only [codesPlain, ihl, ihr]

theorem leafSyms_length (t : HNode) (hp : Proper t) :
    (leafSyms t).length = internalCount t + 1 := by
  induction hp with
  | leaf s num => rfl
  | node l r num hl hr ihl ihr =>
    show (leafSyms l ++ leafSyms r).length = _
    rw [List.length_append, ihl, ihr]
    show _ = internalCount l + internalCount r + 1 + 1
    omega

theorem codesPlain_values_nodup (t : HNode) (hp : Proper t) :
    ∀ pre, ((codesPlain t pre).map Prod.snd).Nodup := by
  induction hp with
  | leaf s num => intro pre; simp [codesPlain]
  | node l r num hl hr ihl ihr =>
    intro pre
    show ((codesPlain l (pre ++ [false]) ++
      codesPlain r (pre ++ [true])).map Prod.snd).Nodup
    rw [List.map_append]
    refine List.Nodup.append (ihl _) (ihr _) ?_
    intro c hcl hcr
    obtain ⟨⟨s1, c1⟩, hm1, he1⟩ := List.mem_map.mp hcl
    obtain ⟨⟨s2, c2⟩, hm2, he2⟩ := List.mem_map.mp hcr
    simp only at he1 he2
    subst he1
    obtain ⟨d1, hd1, _⟩ := codesPlain_mem l hl _ _ _ hm1
    obtain ⟨d2, hd2, _⟩ := codesPlain_mem r hr _ _ _ hm2
    rw [← he2, hd2] at hd1
    have := (List.append_inj hd1 (by simp)).1
    simp at this

theorem codesPlain_code_ne_nil (l r : HNode) (num : Option Int)
    (hl : Proper l) (hr : Proper r) (s : Nat) (c : List Bool)
    (hm : (s, c) ∈ codesPlain (.mk none (some l) (some r) num) []) :
    c ≠ [] := by
  have hm2 : (s, c) ∈ codesPlain l [false] ++ codesPlain r [true] := hm
  rcases List.mem_append.mp hm2 with h | h
  · obtain ⟨d, hd, _⟩ := codesPlain_mem l hl _ _ _ h
    rw [hd]; simp
  · obtain ⟨d, hd, _⟩ := codesPlain_mem r hr _ _ _ h
    rw [hd]; simp

theorem flattenRecs_length (rs : List ReadNode) :
    (flattenRecs rs).length = 4 * rs.length := by
  induction rs with
  | nil => rfl
  | cons e rest ih =>
    show ([e.l_type, e.l_data, e.r_type, e.r_data] ++ flattenRecs rest).length
      = _
    rw [List.length_append, ih]
    simp only [List.length_cons, List.length_nil]
    omega

-- Bit-packing lemmas: `bits_to_byte` and `byte_to_bits` are mutually
-- inverse on 8-bit groups, so the packed payload expands back to the
-- concatenated code bits plus zero padding.

theorem bits8_roundtrip (a b c d e f g h : Bool) :
    byte_to_bits (bits_to_byte [a, b, c, d, e, f, g, h]) =
      [a, b, c, d, e, f, g, h] ∧ bits_to_byte [a, b, c, d, e, f, g, h] < 256 := by
  revert a b c d e f g h
  decide

theorem bits8_of_length (c : List Bool) (hc : c.length = 8) :
    byte_to_bits (bits_to_byte c) = c := by
  rcases c with _ | ⟨a, _ | ⟨b, _ | ⟨c2, _ | ⟨d, _ | ⟨e, _ | ⟨f, _ | ⟨g,
    _ | ⟨h2, _ | ⟨i, rest⟩⟩⟩⟩⟩⟩⟩⟩⟩
  · simp at hc
  · simp at hc
  · simp at hc
  · simp at hc
  · simp at hc
  · simp at hc
  · simp at hc
  · simp at hc
  · exact (bits8_roundtrip a b c2 d e f g h2).1
  · simp only [List.length_cons] at hc
    omega

theorem bitsOf_foldl (bytes : List Nat) :
    ∀ A : List Bool,
      bytes.foldl (fun acc byte => acc ++ byte_to_bits byte) A =
        A ++ bitsOf bytes := by
  induction bytes with
  | nil => intro A; simp [bitsOf]
  | cons x xs ih =>
    intro A
    show xs.foldl _ (A ++ byte_to_bits x) = _
    rw [ih (A ++ byte_to_bits x)]
    have h2 : bitsOf (x :: xs) = byte_to_bits x ++ bitsOf xs := by
      show xs.foldl _ ([] ++ byte_to_bits x) = _
      rw [ih ([] ++ byte_to_bits x)]
      simp
    rw [h2, List.append_assoc]

theorem bitsOf_cons (x : Nat) (xs : List Nat) :
    bitsOf (x :: xs) = byte_to_bits x ++ bitsOf xs := by
  show xs.foldl _ ([] ++ byte_to_bits x) = _
  rw [bitsOf_foldl xs ([] ++ byte_to_bits x)]
  simp

theorem bitsOf_chunks (cs : List (List Bool)) (h8 : ∀ c ∈ cs, c.length = 8) :
    bitsOf (cs.map bits_to_byte) = cs.flatten := by
  induction cs with
  | nil => rfl
  | cons c rest ih =>
    rw [List.map_cons, bitsOf_cons,
      bits8_of_length c (h8 c (List.mem_cons_self _ _)), List.flatten_cons,
      ih (fun x hx => h8 x (List.mem_cons_of_mem _ hx))]

theorem chunkFull_spec (bs : List Bool) (hlen : bs.length % 8 = 0) :
    (chunkFull bs).flatten = bs ∧ ∀ c ∈ chunkFull bs, c.length = 8 := by
  induction bs using chunkFull.induct with
  | case1 a b c d e f g h2 rest ih =>
    simp only [List.length_cons] at hlen
    obtain ⟨hfl, hl8⟩ := ih (by omega)
    constructor
    · show ([a, b, c, d, e, f, g, h2] :: chunkFull rest).flatten = _
      rw [List.flatten_cons, hfl]
      rfl
    · intro ch hch
      have hch2 : ch ∈ [a, b, c, d, e, f, g, h2] :: chunkFull rest := hch
      rcases List.mem_cons.mp hch2 with he | hm
      · rw [he]; rfl
      · exact hl8 ch hm
  | case2 t hx =>
    rcases t with _ | ⟨a, _ | ⟨b, _ | ⟨c, _ | ⟨d, _ | ⟨e, _ | ⟨f, _ | ⟨g,
      _ | ⟨h2, rest⟩⟩⟩⟩⟩⟩⟩⟩
    · exact ⟨rfl, by simp [chunkFull]⟩
    · simp at hlen
    · simp at hlen
    · simp at hlen
    · simp at hlen
    · simp at hlen
    · simp at hlen
    · simp at hlen
    · exact absurd rfl (hx a b c d e f g h2 rest)

theorem padTo8_full (r : List Bool) (h : r.length = 8) : padTo8 r = r := by
  rw [padTo8, if_pos (by rw [h])]

theorem padTo8_partial (r : List Bool) (h1 : r.length < 8)
    (h2 : r.length ≠ 0) :
    padTo8 r = r ++ List.replicate (8 - r.length) false ∧
      (padTo8 r).length = 8 := by
  have hm : r.length % 8 = r.length := Nat.mod_eq_of_lt h1
  have he : padTo8 r = r ++ List.replicate (8 - r.length) false := by
    rw [padTo8, if_neg (by rw [hm]; exact h2)]
  refine ⟨he, ?_⟩
  rw [he, List.length_append, List.length_replicate]
  omega

theorem catCodes_fold (codes : List (Nat × List Bool)) (ts : List Nat)
    (hs : ∀ b ∈ ts, (dictGet codes b).isSome) :
    ∀ acc : List Bool,
      ts.foldlM
        (fun acc i => do
          let c ← dictGet codes i
          pure (acc ++ c)) acc = some (acc ++ catCodes codes ts) := by
  induction ts with
  | nil => intro acc; simp [catCodes]
  | cons b bs ih =>
    intro acc
    obtain ⟨c, hc⟩ := Option.isSome_iff_exists.mp
      (hs b (List.mem_cons_self _ _))
    have h2 := ih (fun x hx => hs x (List.mem_cons_of_mem _ hx)) (acc ++ c)
    rw [List.foldlM_cons]
    show Option.bind (Option.bind (dictGet codes b) (fun c2 => some (acc ++ c2)))
      (fun a2 => bs.foldlM
        (fun acc i => do
          let c3 ← dictGet codes i
          pure (acc ++ c3)) a2) = _
    rw [hc]
    simp only [Option.some_bind]
    refine h2.trans ?_
    show _ = some (acc ++ ((dictGet codes b).getD [] ++ catCodes codes bs))
    rw [hc]
    simp

theorem generate_compressed_spec (text : List Nat)
    (codes : List (Nat × List Bool)) (hne : text ≠ [])
    (hc : ∀ b ∈ text, ∃ c, dictGet codes b = some c ∧ c ≠ []) :
    ∃ P, generate_compressed text codes = some P ∧
      bitsOf P = catCodes codes text ++
        List.replicate ((8 - (catCodes codes text).length % 8) % 8) false := by
  have hfold := catCodes_fold codes text
    (fun b hb => by
      obtain ⟨c, hc1, _⟩ := hc b hb
      rw [hc1]; rfl) []
  rw [List.nil_append] at hfold
  have hctne : catCodes codes text ≠ [] := by
    match text, hne with
    | b :: bs, _ =>
      obtain ⟨c, hc1, hc2⟩ := hc b (List.mem_cons_self _ _)
      show (dictGet codes b).getD [] ++ catCodes codes bs ≠ []
      rw [hc1]
      intro h0
      exact hc2 (List.append_eq_nil.mp h0).1
  set ct := catCodes codes text with hct
  have hgc : generate_compressed text codes =
      (let end_point := ct.length - ct.length % 8
       let remainder := ct.drop end_point
       let comp_list := chunkFull (ct.take end_point) ++
         (if remainder = [] then [] else [remainder])
       match comp_list.getLast? with
       | none => none
       | some last =>
         some ((comp_list.dropLast ++ [padTo8 last]).map bits_to_byte)) := by
    show Option.bind (text.foldlM _ []) _ = _
    rw [hfold]
    rfl
  by_cases hmod : ct.length % 8 = 0
  · -- the bit count is a multiple of 8: no padding
    have hEP : ct.length - ct.length % 8 = ct.length := by omega
    rw [hgc]
    show ∃ P, (match (chunkFull (ct.take (ct.length - ct.length % 8)) ++
        (if ct.drop (ct.length - ct.length % 8) = [] then []
         else [ct.drop (ct.length - ct.length % 8)])).getLast? with
      | none => none
      | some last =>
        some (((chunkFull (ct.take (ct.length - ct.length % 8)) ++
          (if ct.drop (ct.length - ct.length % 8) = [] then []
           else [ct.drop (ct.length - ct.length % 8)])).dropLast ++
          [padTo8 last]).map bits_to_byte)) = some P ∧ _
    rw [hEP, List.take_length, List.drop_length, if_pos rfl, List.append_nil]
    obtain ⟨hflat, h8⟩ := chunkFull_spec ct hmod
    have hchne : chunkFull ct ≠ [] := by
      intro h0
      rw [h0] at hflat
      exact hctne hflat.symm
    rw [List.getLast?_eq_getLast _ hchne]
    refine ⟨_, rfl, ?_⟩
    rw [padTo8_full _ (h8 _ (List.getLast_mem hchne)),
      List.dropLast_append_getLast hchne, bitsOf_chunks _ h8, hflat, hmod]
    simp
  · -- a trailing partial group is zero-padded to 8 bits
    have hmlt : ct.length % 8 < 8 := Nat.mod_lt _ (by omega)
    have hEP : (ct.length - ct.length % 8) % 8 = 0 := by omega
    have hdlen : (ct.drop (ct.length - ct.length % 8)).length =
        ct.length % 8 := by
      rw [List.length_drop]
      omega
    have hdne : ct.drop (ct.length - ct.length % 8) ≠ [] := by
      intro h0
      rw [h0] at hdlen
      exact hmod hdlen.symm
    have htlen : (ct.take (ct.length - ct.length % 8)).length =
        ct.length - ct.length % 8 := by
      rw [List.length_take]
      omega
    obtain ⟨hflat, h8⟩ := chunkFull_spec (ct.take (ct.length - ct.length % 8))
      (by rw [htlen]; exact hEP)
    rw [hgc]
    show ∃ P, (match (chunkFull (ct.take (ct.length - ct.length % 8)) ++
        (if ct.drop (ct.length - ct.length % 8) = [] then []
         else [ct.drop (ct.length - ct.length % 8)])).getLast? with
      | none => none
      | some last =>
        some (((chunkFull (ct.take (ct.length - ct.length % 8)) ++
          (if ct.drop (ct.length - ct.length % 8) = [] then []
           else [ct.drop (ct.length - ct.length % 8)])).dropLast ++
          [padTo8 last]).map bits_to_byte)) = some P ∧ _
    rw [if_neg hdne, List.getLast?_concat, List.dropLast_concat]
    refine ⟨_, rfl, ?_⟩
    obtain ⟨hpad, hpadlen⟩ := padTo8_partial (ct.drop (ct.length -
        ct.length % 8))
      (by rw [hdlen]; exact hmlt) (by rw [hdlen]; exact hmod)
    have h8b : ∀ c ∈ chunkFull (ct.take (ct.length - ct.length % 8)) ++
        [padTo8 (ct.drop (ct.length - ct.length % 8))], c.length = 8 := by
      intro c hcm
      rcases List.mem_append.mp hcm with hm | hm
      · exact h8 c hm
      · simp only [List.mem_singleton] at hm
        rw [hm]
        exact hpadlen
    rw [bitsOf_chunks _ h8b, List.flatten_append, hflat]
    simp only [List.flatten_cons, List.flatten_nil, List.append_nil]
    have hlt2 : 8 - ct.length % 8 < 8 := by omega
    rw [hpad, ← List.append_assoc, List.take_append_drop, hdlen,
      Nat.mod_eq_of_lt hlt2]

theorem size_roundtrip (n : Nat) (h : n < 2 ^ 32) :
    size_to_bytes n =
      some [n % 256, n / 256 % 256, n / 2 ^ 16 % 256, n / 2 ^ 24 % 256] ∧
    bytes_to_size
      [n % 256, n / 256 % 256, n / 2 ^ 16 % 256, n / 2 ^ 24 % 256] = n := by
  refine ⟨by rw [size_to_bytes, if_pos h], ?_⟩
  show n % 256 + 256 * (n / 256 % 256 + 256 * (n / 2 ^ 16 % 256 +
    256 * (n / 2 ^ 24 % 256 + 256 * 0))) = n
  omega

-- The `avg_length` fold succeeds (and its denominator is positive)
-- whenever every coded symbol is in the frequency table with a positive
-- count.

theorem avg_fold_sums (freq : List (Nat × Nat)) :
    ∀ (codes : List (Nat × List Bool)) (p : ℚ × ℚ),
      (∀ kv ∈ codes, ∃ f, dictGet freq kv.1 = some f ∧ 1 ≤ f) →
      ∃ q : ℚ × ℚ,
        codes.foldlM
          (fun (p : ℚ × ℚ) (kv : Nat × List Bool) => do
            let f ← dictGet freq kv.1
            pure (p.1 + (kv.2.length : ℚ) * (f : ℚ), p.2 + (f : ℚ)))
          p = some q ∧ p.2 + codes.length ≤ q.2 := by
  intro codes
  induction codes with
  | nil => intro p _; exact ⟨p, by simp, by simp⟩
  | cons kv rest ih =>
    intro p hmem
    obtain ⟨f, hf, hf1⟩ := hmem kv (List.mem_cons_self _ _)
    obtain ⟨q, hq, hle⟩ := ih (p.1 + (kv.2.length : ℚ) * (f : ℚ),
      p.2 + (f : ℚ)) (fun x hx => hmem x (List.mem_cons_of_mem _ hx))
    rw [List.foldlM_cons]
    refine ⟨q, ?_, ?_⟩
    · show Option.bind (Option.bind (dictGet freq kv.1) _) _ = _
      rw [hf]
      simp only [Option.some_bind]
      exact hq
    · have hfq : (1 : ℚ) ≤ (f : ℚ) := by exact_mod_cast hf1
      simp only [List.length_cons] at *
      push_cast at hle ⊢
      linarith

theorem avg_length_isSome (t : HNode) (freq : List (Nat × Nat))
    (hc : ∀ kv ∈ get_codes t, ∃ f, dictGet freq kv.1 = some f ∧ 1 ≤ f)
    (hne : get_codes t ≠ []) :
    ∃ q, avg_length t freq = some q := by
  obtain ⟨q, hq, hle⟩ := avg_fold_sums freq (get_codes t) (0, 0) hc
  have hlen : 1 ≤ (get_codes t).length := by
    cases hg : get_codes t with
    | nil => exact absurd hg hne
    | cons a l => simp
  have hpos : ¬ q.2 = 0 := by
    have h1 : (1 : ℚ) ≤ ((get_codes t).length : ℚ) := by exact_mod_cast hlen
    intro h0
    rw [h0] at hle
    simp only at hle
    linarith
  refine ⟨round2 (q.1 / q.2), ?_⟩
  show Option.bind ((get_codes t).foldlM
    (fun (p : ℚ × ℚ) (kv : Nat × List Bool) => do
      let f ← dictGet freq kv.1
      pure (p.1 + (kv.2.length : ℚ) * (f : ℚ), p.2 + (f : ℚ)))
    ((0 : ℚ), (0 : ℚ)))
    (fun sums_s =>
      if sums_s.2 = 0 then none else some (round2 (sums_s.1 / sums_s.2)))
    = _
  rw [hq]
  simp only [Option.some_bind]
  show (if q.2 = 0 then none else some (round2 (q.1 / q.2))) = _
  rw [if_neg hpos]

-- Inverting the code table: with distinct code values `invert_dict` is
-- the swapped association list, looked up by code.

theorem invert_fold_swap {α β : Type} [DecidableEq α] [DecidableEq β]
    (d : List (α × β)) :
    ∀ acc : List (β × α),
      (acc.map Prod.fst ++ d.map Prod.snd).Nodup →
      d.foldl (fun acc kv => dictSet acc kv.2 kv.1) acc =
        acc ++ d.map (fun kv => (kv.2, kv.1)) := by
  induction d with
  | nil => intro acc _; simp
  | cons kv rest ih =>
    intro acc hnd
    simp only [List.map_cons] at hnd
    have hfresh : kv.2 ∉ acc.map Prod.fst := by
      intro hm
      have := (List.nodup_append.mp hnd).2.2
      exact this hm (List.mem_cons_self _ _)
    rw [List.foldl_cons, dictSet_fresh acc kv.2 kv.1 hfresh]
    rw [ih (acc ++ [(kv.2, kv.1)])
      (by
        rw [List.map_append, List.append_assoc]
        have he : ([(kv.2, kv.1)].map Prod.fst) ++ rest.map Prod.snd =
            kv.2 :: rest.map Prod.snd := by simp
        rw [he]
        exact hnd)]
    simp

theorem invert_dict_eq_swap {α β : Type} [DecidableEq α] [DecidableEq β]
    (d : List (α × β)) (h : (d.map Prod.snd).Nodup) :
    invert_dict d = d.map (fun kv => (kv.2, kv.1)) := by
  have := invert_fold_swap d [] (by simpa using h)
  simpa [invert_dict] using this

theorem invert_get {α β : Type} [DecidableEq α] [DecidableEq β]
    (d : List (α × β)) (h : (d.map Prod.snd).Nodup) (k : α) (v : β)
    (hm : (k, v) ∈ d) : dictGet (invert_dict d) v = some k := by
  rw [invert_dict_eq_swap d h]
  refine dictGet_mem _ _ _ ?_ ?_
  · rw [List.map_map]
    exact h
  · exact List.mem_map.mpr ⟨(k, v), hm, rfl⟩

theorem invert_get_mem {α β : Type} [DecidableEq α] [DecidableEq β]
    (d : List (α × β)) (h : (d.map Prod.snd).Nodup) (v : β) (k : α)
    (hg : dictGet (invert_dict d) v = some k) : (k, v) ∈ d := by
  rw [invert_dict_eq_swap d h] at hg
  have := dictGet_mem_pair _ _ _ hg
  obtain ⟨⟨k0, v0⟩, hm, he⟩ := List.mem_map.mp this
  simp only [Prod.mk.injEq] at he
  rw [← he.1, ← he.2]
  exact hm

-- The greedy bit scanner of `generate_uncompressed`, decoding one code
-- and then a whole prefix-free text.

theorem scan_one (inv : List (List Bool × Nat)) (s : Nat) (size : Nat) :
    ∀ (c : List Bool) (acc rest : List Bool) (out : List Nat),
      c ≠ [] →
      dictGet inv (acc ++ c) = some s →
      (∀ c1 c2, c = c1 ++ c2 → c2 ≠ [] → dictGet inv (acc ++ c1) = none) →
      scanBits inv (c ++ rest) acc out size =
        if (out ++ [s]).length = size then out ++ [s]
        else scanBits inv rest [] (out ++ [s]) size := by
  intro c
  induction c with
  | nil => intro _ _ _ hne _ _; exact absurd rfl hne
  | cons b c2 ih =>
    intro acc rest out _ hsome hnone
    cases c2 with
    | nil =>
      have hs2 : dictGet inv (acc ++ [b]) = some s := hsome
      show scanBits inv (b :: rest) acc out size = _
      simp only [scanBits, hs2]
    | cons b2 c3 =>
      have hn : dictGet inv (acc ++ [b]) = none :=
        hnone [b] (b2 :: c3) rfl (by simp)
      show scanBits inv (b :: ((b2 :: c3) ++ rest)) acc out size = _
      simp only [scanBits, hn]
      refine ih (acc ++ [b]) rest out (by simp) ?_ ?_
      · rw [List.append_assoc]
        exact hsome
      · intro c1 c4 he hne4
        rw [List.append_assoc]
        exact hnone (b :: c1) c4 (by rw [he]; rfl) hne4

theorem scan_text (cp : List (Nat × List Bool)) (size : Nat)
    (hkeys : (cp.map Prod.fst).Nodup)
    (hvals : (cp.map Prod.snd).Nodup)
    (hpf : ∀ s1 c1 s2 c2, (s1, c1) ∈ cp → (s2, c2) ∈ cp → s1 ≠ s2 →
      ¬ c1 <+: c2)
    (hnn : ∀ s c, (s, c) ∈ cp → c ≠ []) :
    ∀ (ts : List Nat) (out : List Nat) (tail : List Bool),
      ts ≠ [] →
      out.length + ts.length = size →
      (∀ b ∈ ts, b ∈ cp.map Prod.fst) →
      scanBits (invert_dict cp) (catCodes cp ts ++ tail) [] out size =
        out ++ ts := by
  intro ts
  induction ts with
  | nil => intro _ _ hne _ _; exact absurd rfl hne
  | cons b ts2 ih =>
    intro out tail _ hlen hmem
    obtain ⟨c, hc⟩ := dictGet_isSome_of_mem cp b
      (hmem b (List.mem_cons_self _ _))
    have hbc : (b, c) ∈ cp := dictGet_mem_pair _ _ _ hc
    have hcne : c ≠ [] := hnn b c hbc
    have hcat : catCodes cp (b :: ts2) = c ++ catCodes cp ts2 := by
      show (dictGet cp b).getD [] ++ _ = _
      rw [hc]
      rfl
    have hsome : dictGet (invert_dict cp) ([] ++ c) = some b := by
      rw [List.nil_append]
      exact invert_get cp hvals b c hbc
    have hnone : ∀ c1 c4, c = c1 ++ c4 → c4 ≠ [] →
        dictGet (invert_dict cp) ([] ++ c1) = none := by
      intro c1 c4 he hn4
      rw [List.nil_append]
      cases hg : dictGet (invert_dict cp) c1 with
      | none => rfl
      | some s2 =>
        exfalso
        have hm2 : (s2, c1) ∈ cp := invert_get_mem cp hvals c1 s2 hg
        by_cases hsb : s2 = b
        · subst hsb
          have hsome2 := dictGet_mem cp s2 c1 hkeys hm2
          rw [hc] at hsome2
          have h5 : c = c1 := Option.some_inj.mp hsome2
          rw [← h5] at he
          have := congrArg List.length he
          rw [List.length_append] at this
          exact hn4 (List.length_eq_zero.mp (by omega))
        · exact hpf s2 c1 b c hm2 hbc hsb ⟨c4, he.symm⟩
    rw [hcat, List.append_assoc,
      scan_one (invert_dict cp) b size c [] (catCodes cp ts2 ++ tail) out
        hcne hsome hnone]
    simp only [List.length_cons] at hlen
    cases ts2 with
    | nil =>
      rw [if_pos (by
        rw [List.length_append, List.length_singleton]
        simpa using hlen)]
    | cons b2 ts3 =>
      rw [if_neg (by
        intro h0
        rw [List.length_append, List.length_singleton] at h0
        simp only [List.length_cons] at hlen
        omega)]
      have hlen2 : (out ++ [b]).length + (b2 :: ts3).length = size := by
        rw [List.length_append, List.length_singleton]
        simp only [List.length_cons] at hlen ⊢
        omega
      have := ih (out ++ [b]) tail (by simp) hlen2
        (fun x hx => hmem x (List.mem_cons_of_mem _ hx))
      rw [this, List.append_assoc]
      rfl

-- Tree-builder lemmas: `huffman_tree` on a table with at least two
-- distinct keys returns a proper internal-rooted tree whose leaf
-- symbols are a permutation of the table keys.

theorem deductItem_proper (i : Item) (hi : ItemProper i) :
    Proper (deductItem i) ∧ leafSyms (deductItem i) = itemSyms i := by
  induction hi with
  | node t ht => exact ⟨ht, rfl⟩
  | pair c1 i1 c2 i2 h1 h2 ih1 ih2 =>
    refine ⟨Proper.node _ _ _ ih1.1 ih2.1, ?_⟩
    simp [deductItem, leafSyms, itemSyms, ih1.2, ih2.2]

theorem perm_rotate (S1 S2 A B : List Nat) :
    List.Perm (S1 ++ (S2 ++ (A ++ B))) (A ++ (B ++ (S1 ++ S2))) := by
  simpa [List.append_assoc] using
    (@List.perm_append_comm Nat (S1 ++ S2) (A ++ B))

theorem symsOfList_perm {l1 l2 : List (Nat × Item)} (h : List.Perm l1 l2) :
    List.Perm (symsOfList l1) (symsOfList l2) := by
  induction h with
  | nil => rfl
  | cons x h ih =>
    simpa [symsOfList] using ih.append_left (itemSyms x.2)
  | swap x y l =>
    simp only [symsOfList, List.map_cons, List.flatten_cons]
    rw [← List.append_assoc, ← List.append_assoc]
    exact (List.perm_append_comm.append_right _)
  | trans h1 h2 ih1 ih2 => exact ih1.trans ih2

theorem symsOfList_append (l1 l2 : List (Nat × Item)) :
    symsOfList (l1 ++ l2) = symsOfList l1 ++ symsOfList l2 := by
  simp [symsOfList]

theorem buildLoop_ok (flen : Nat) (hf : 2 ≤ flen) :
    ∀ fuel lst, lst.length ≤ fuel → 2 ≤ lst.length →
      (∀ p ∈ lst, ItemProper p.2) →
      ∃ l r, buildLoop flen fuel lst = some (.mk none (some l) (some r) none) ∧
        Proper l ∧ Proper r ∧
        List.Perm (leafSyms l ++ leafSyms r) (symsOfList lst) := by
  intro fuel
  induction fuel with
  | zero =>
    intro lst hlen h2 _
    omega
  | succ fuel ih =>
    intro lst hlen h2 hprop
    rcases lst with _ | ⟨x, _ | ⟨y, tail⟩⟩
    · simp at h2
    · simp at h2
    have hperm := sortByCount_perm (x :: y :: tail)
    have hlen2 : (sortByCount (x :: y :: tail)).length = tail.length + 2 := by
      simp [hperm.length_eq]
    rcases hs : sortByCount (x :: y :: tail) with _ | ⟨a, _ | ⟨b, rest⟩⟩
    · rw [hs] at hlen2; simp at hlen2
    · rw [hs] at hlen2; simp at hlen2
    have hstep0 : buildLoop flen (fuel + 1) (x :: y :: tail) =
        if flen = 1 then itemAsNode x.2
        else
          match sortByCount (x :: y :: tail) with
          | a :: b :: rest =>
            buildLoop flen fuel (rest ++ [(a.1 + b.1, Item.pair a.1 a.2 b.1 b.2)])
          | _ => none := rfl
    have hstep : buildLoop flen (fuel + 1) (x :: y :: tail) =
        buildLoop flen fuel (rest ++ [(a.1 + b.1, Item.pair a.1 a.2 b.1 b.2)]) := by
      rw [hstep0, if_neg (by omega), hs]
    have hmem_sorted : ∀ p ∈ a :: b :: rest, ItemProper p.2 := by
      intro p hp
      exact hprop p ((hperm.mem_iff).mp (hs ▸ hp))
    have hpa : ItemProper a.2 := hmem_sorted a (by simp)
    have hpb : ItemProper b.2 := hmem_sorted b (by simp)
    have hsyms_sorted : List.Perm (symsOfList (a :: b :: rest))
        (symsOfList (x :: y :: tail)) := symsOfList_perm (hs ▸ hperm)
    rcases rest with _ | ⟨r0, rest'⟩
    · -- the merge leaves a single pair; the next call hits the
      -- length-one branch and duplicates the deducted root
      rcases fuel with _ | fuel2
      · simp only [List.length_cons] at hlen
        omega
      rw [hstep]
      simp only [List.nil_append]
      have hstep1 : buildLoop flen (fuel2 + 1)
          [(a.1 + b.1, Item.pair a.1 a.2 b.1 b.2)] =
          if flen = 1 then itemAsNode (Item.pair a.1 a.2 b.1 b.2)
          else some (.mk none (some (deductItem a.2)) (some (deductItem b.2))
            none) := rfl
      rw [hstep1, if_neg (by omega)]
      obtain ⟨hpl, hsl⟩ := deductItem_proper a.2 hpa
      obtain ⟨hpr, hsr⟩ := deductItem_proper b.2 hpb
      refine ⟨deductItem a.2, deductItem b.2, rfl, hpl, hpr, ?_⟩
      rw [hsl, hsr]
      have hab : symsOfList [a, b] = itemSyms a.2 ++ itemSyms b.2 := by
        simp [symsOfList]
      rw [hab] at hsyms_sorted
      exact hsyms_sorted
    · -- still at least two items: recurse
      have hlen3 : (r0 :: rest').length + 2 = tail.length + 2 := by
        rw [hs] at hlen2
        simpa using hlen2
      obtain ⟨l, r, heq, hl, hr, hsy⟩ :=
        ih ((r0 :: rest') ++ [(a.1 + b.1, Item.pair a.1 a.2 b.1 b.2)])
          (by
            simp only [List.length_append, List.length_cons, List.length_nil]
              at *
            omega)
          (by simp)
          (by
            intro p hp
            rcases List.mem_append.mp hp with hp1 | hp2
            · exact hmem_sorted p (by simp [hp1])
            · simp only [List.mem_singleton] at hp2
              subst hp2
              exact ItemProper.pair _ _ _ _ hpa hpb)
      refine ⟨l, r, hstep ▸ heq, hl, hr, ?_⟩
      refine hsy.trans ?_
      rw [symsOfList_append]
      refine List.Perm.trans ?_ hsyms_sorted
      have h1 : symsOfList [((a.1 + b.1, Item.pair a.1 a.2 b.1 b.2))] =
          itemSyms a.2 ++ itemSyms b.2 := by simp [symsOfList, itemSyms]
      rw [h1]
      simp only [symsOfList, List.map_cons, List.flatten_cons,
        List.append_assoc]
      exact perm_rotate _ _ _ _

theorem symsOfList_sortfreq (freq : List (Nat × Nat)) :
    symsOfList (freq.map (fun kv => (kv.2, Item.node (leafN kv.1)))) =
      freq.map Prod.fst := by
  induction freq with
  | nil => rfl
  | cons kv rest ihf =>
    simp only [List.map_cons, symsOfList, List.flatten_cons] at *
    rw [ihf]
    simp [itemSyms, leafN, leafSyms]

theorem huffman_tree_ok (freq : List (Nat × Nat)) (h2 : 2 ≤ freq.length) :
    ∃ l r, huffman_tree freq = some (.mk none (some l) (some r) none) ∧
      Proper l ∧ Proper r ∧
      List.Perm (leafSyms l ++ leafSyms r) (freq.map Prod.fst) := by
  have hlen : (sort_freq freq).length = freq.length := by
    simp [sort_freq, sortByCount_length']
  obtain ⟨l, r, heq, hl, hr, hsy⟩ :=
    buildLoop_ok freq.length h2 (sort_freq freq).length (sort_freq freq)
      (le_refl _) (by omega)
      (by
        intro p hp
        have hp2 := (sortByCount_perm _).mem_iff.mp hp
        obtain ⟨kv, _, hkv⟩ := List.mem_map.mp hp2
        rw [← hkv]
        exact ItemProper.node _ (Proper.leaf kv.1 none))
  refine ⟨l, r, heq, hl, hr, hsy.trans ?_⟩
  refine (symsOfList_perm (sortByCount_perm _)).trans ?_
  rw [symsOfList_sortfreq]

/-- C4: for every tree `T` produced by the tree builder from a
frequency table with at least two distinct symbols, the code table
`get_codes T` is prefix-free: codes of distinct symbols are never
prefixes of one another (in particular never proper prefixes). -/
theorem huffman_codes_prefix_free (F : List (Nat × Nat))
    (hnodup : (F.map Prod.fst).Nodup) (h2 : 2 ≤ F.length) :
    ∃ t, huffman_tree F = some t ∧
      ∀ s1 c1 s2 c2, (s1, c1) ∈ get_codes t → (s2, c2) ∈ get_codes t →
        s1 ≠ s2 → ¬ c1 <+: c2 := by
  obtain ⟨l, r, heq, hl, hr, hsy⟩ := huffman_tree_ok F h2
  refine ⟨HNode.mk none (some l) (some r) none, heq, ?_⟩
  have hp : Proper (HNode.mk none (some l) (some r) none) :=
    Proper.node _ _ _ hl hr
  have hnd : (leafSyms (HNode.mk none (some l) (some r) none)).Nodup := by
    have : leafSyms (HNode.mk none (some l) (some r) none) =
        leafSyms l ++ leafSyms r := by simp [leafSyms]
    rw [this]
    exact (hsy.nodup_iff).mpr hnodup
  rw [get_codes_eq_plain _ hp hnd]
  intro s1 c1 s2 c2 h1 h2' hne
  exact codes_prefix_free _ hp s1 s2 c1 c2 h1 h2' hne

/-- Witness for C4 at the two-symbol table `{1: 1, 2: 1}`. -/
theorem huffman_codes_prefix_free_witness :
    ∃ t, huffman_tree [(1, 1), (2, 1)] = some t ∧
      ∀ s1 c1 s2 c2, (s1, c1) ∈ get_codes t → (s2, c2) ∈ get_codes t →
        s1 ≠ s2 → ¬ c1 <+: c2 :=
  huffman_codes_prefix_free [(1, 1), (2, 1)] (by decide) (by decide)

-- Numbering-pass lemmas: the two passes of `number_nodes` amount to a
-- standard postorder numbering.

theorem internalCount_leaf (s : Option Nat) (num : Option Int) :
    internalCount (.mk s none none num) = 0 := rfl

theorem strip_symbol (u : HNode) : (strip u).symbol = u.symbol := by
  obtain ⟨s, l, r, num⟩ := u
  cases l <;> cases r <;> rfl

theorem intRange_length (n : Int) (k : Nat) : (intRange n k).length = k := by
  induction k generalizing n with
  | zero => rfl
  | succ k ih => simp [intRange, ih]

theorem intRange_append (n : Int) (k1 k2 : Nat) :
    intRange n k1 ++ intRange (n + k1) k2 = intRange n (k1 + k2) := by
  induction k1 generalizing n with
  | zero => simp [intRange]
  | succ k ih =>
    show n :: intRange (n + 1) k ++ intRange (n + (k + 1 : Nat)) k2 = _
    have h1 : (n : Int) + ((k : Nat) + 1 : Nat) = (n + 1) + (k : Nat) := by
      push_cast
      ring
    rw [List.cons_append, h1, ih (n + 1),
      show k + 1 + k2 = (k + k2) + 1 from by omega]
    rfl

theorem intRange_concat (n : Int) (k : Nat) :
    intRange n (k + 1) = intRange n k ++ [n + k] := by
  have h := intRange_append n k 1
  rw [← h]
  rfl

theorem intRange_getLast (n : Int) (k : Nat) (hk : 1 ≤ k) :
    (intRange n k).getLast? = some (n + k - 1) := by
  obtain ⟨k0, rfl⟩ : ∃ k0, k = k0 + 1 := ⟨k - 1, by omega⟩
  rw [intRange_concat, List.getLast?_append]
  show some ((n : Int) + k0) = some (n + (k0 + 1 : Nat) - 1)
  congr 1
  push_cast
  ring

theorem nn_pass_up (t : HNode) (hp : Proper t) :
    ∀ n : Int, ∃ t1,
      nn_pass 1 t n = some (t1, n + internalCount t,
        intRange n (internalCount t)) ∧
      Proper t1 ∧ internalCount t1 = internalCount t ∧
      strip t1 = strip t ∧ leafNums t1 = leafNums t := by
  induction hp with
  | leaf s num =>
    intro n
    refine ⟨.mk (some s) none none num, ?_, Proper.leaf s num, rfl, rfl, rfl⟩
    show some (HNode.mk (some s) none none num, n, ([] : List Int)) = _
    rw [internalCount_leaf]
    norm_num [intRange]
  | node l r num hl hr ihl ihr =>
    intro n
    obtain ⟨r1, hreq, hrp, hrc, hrs, hrn⟩ := ihr (n + 1)
    obtain ⟨l1, hleq, hlp, hlc, hls, hln⟩ := ihl (n + 1 + internalCount r)
    refine ⟨.mk none (some l1) (some r1) (some n), ?_, ?_, ?_, ?_, ?_⟩
    · show Option.bind (nn_pass 1 r (n + 1)) (fun x =>
        Option.bind (nn_pass 1 l x.2.1) (fun y =>
          some (HNode.mk none (some y.1) (some x.1) (some n), y.2.1,
            n :: (x.2.2 ++ y.2.2)))) = _
      rw [hreq]
      simp only [Option.some_bind]
      rw [hleq]
      simp only [Option.some_bind]
      have hcount : n + 1 + (internalCount r : Int) + internalCount l =
          n + internalCount (HNode.mk none (some l) (some r) num) := by
        simp only [internalCount]
        push_cast
        ring
      have hrange : n :: (intRange (n + 1) (internalCount r) ++
          intRange (n + 1 + internalCount r) (internalCount l)) =
          intRange n (internalCount (HNode.mk none (some l) (some r) num)) := by
        rw [intRange_append]
        show _ = intRange n (internalCount l + internalCount r + 1)
        rw [show internalCount l + internalCount r + 1 =
          (internalCount r + internalCount l) + 1 from by ring]
        rfl
      rw [hcount, hrange]
    · exact Proper.node _ _ _ hlp hrp
    · simp only [internalCount, hlc, hrc]
    · simp only [strip, hls, hrs]
    · simp only [leafNums, hln, hrn]

theorem nn_pass_down (t : HNode) (hp : Proper t) :
    ∀ n : Int, ∃ t2 lout,
      nn_pass (-1) t n = some (t2, n - internalCount t, lout) ∧
      Proper t2 ∧ internalCount t2 = internalCount t ∧
      strip t2 = strip t ∧ leafNums t2 = leafNums t ∧
      Numbered t2 (n - internalCount t + 1) ∧
      (t.symbol = none → t2.number = some n) := by
  induction hp with
  | leaf s num =>
    intro n
    refine ⟨.mk (some s) none none num, [], ?_, Proper.leaf s num, rfl, rfl,
      rfl, ?_, ?_⟩
    · show some (HNode.mk (some s) none none num, n, ([] : List Int)) = _
      rw [internalCount_leaf]
      norm_num
    · rw [internalCount_leaf]
      have he : (n : Int) - (0 : Nat) + 1 = n + 1 := by push_cast; ring
      rw [he]
      exact Numbered.leaf s num (n + 1)
    · intro h
      simp [HNode.symbol] at h
  | node l r num hl hr ihl ihr =>
    intro n
    obtain ⟨r2, lr, hreq, hrp, hrc, hrs, hrn, hrnum, _⟩ := ihr (n + -1)
    obtain ⟨l2, ll, hleq, hlp, hlc, hls, hln, hlnum, _⟩ :=
      ihl (n + -1 - internalCount r)
    refine ⟨.mk none (some l2) (some r2) (some n), n :: (lr ++ ll),
      ?_, ?_, ?_, ?_, ?_, ?_, ?_⟩
    · show Option.bind (nn_pass (-1) r (n + -1)) (fun x =>
        Option.bind (nn_pass (-1) l x.2.1) (fun y =>
          some (HNode.mk none (some y.1) (some x.1) (some n), y.2.1,
            n :: (x.2.2 ++ y.2.2)))) = _
      rw [hreq]
      simp only [Option.some_bind]
      rw [hleq]
      simp only [Option.some_bind]
      have hcount : n + -1 - (internalCount r : Int) - internalCount l =
          n - internalCount (HNode.mk none (some l) (some r) num) := by
        simp only [internalCount]
        push_cast
        ring
      rw [hcount]
    · exact Proper.node _ _ _ hlp hrp
    · simp only [internalCount, hlc, hrc]
    · simp only [strip, hls, hrs]
    · simp only [leafNums, hln, hrn]
    · have h1 : Numbered l2 (n - internalCount (HNode.mk none (some l)
          (some r) num) + 1) := by
        have he : n + -1 - (internalCount r : Int) - internalCount l + 1 =
            n - internalCount (HNode.mk none (some l) (some r) num) + 1 := by
          simp only [internalCount]
          push_cast
          ring
        rw [← he]
        exact hlnum
      have h2 : Numbered r2 ((n - internalCount (HNode.mk none (some l)
          (some r) num) + 1) + internalCount l2) := by
        have he : (n - (internalCount (HNode.mk none (some l) (some r) num) :
            Int) + 1) + internalCount l2 = n + -1 - internalCount r + 1 := by
          simp only [internalCount, hlc]
          push_cast
          ring
        rw [he]
        exact hrnum
      have hstep := Numbered.node l2 r2
        (n - internalCount (HNode.mk none (some l) (some r) num) + 1) h1 h2
      have hnum : (n - (internalCount (HNode.mk none (some l) (some r) num) :
          Int) + 1) + internalCount l2 + internalCount r2 = n := by
        simp only [internalCount, hlc, hrc]
        push_cast
        ring
      rw [hnum] at hstep
      exact hstep
    · intro _
      rfl

theorem numbered_internalNumsPost (u : HNode) (n0 : Int) (h : Numbered u n0) :
    internalNumsPost u = (intRange n0 (internalCount u)).map some := by
  induction h with
  | leaf s num n0 => simp [internalNumsPost, internalCount, intRange]
  | node l r n0 hl hr ihl ihr =>
    simp only [internalNumsPost, internalCount, ihl, ihr]
    rw [intRange_concat, ← intRange_append]
    simp only [List.map_append, List.map_cons, List.map_nil,
      List.append_assoc]
    congr 3
    push_cast
    ring

theorem number_nodes_spec (t : HNode) (hp : Proper t)
    (hli : t.left ≠ none) :
    ∃ t2, number_nodes t = some t2 ∧ strip t2 = strip t ∧
      Proper t2 ∧ internalCount t2 = internalCount t ∧
      Numbered t2 0 ∧
      internalNumsPost t2 = (intRange 0 (internalCount t)).map some ∧
      leafNums t2 = leafNums t ∧
      t2.number = some ((internalCount t : Int) - 1) ∧
      1 ≤ internalCount t := by
  rcases hp with ⟨s, num⟩ | ⟨l, r, num, hl, hr⟩
  · exact absurd rfl hli
  have hk : 1 ≤ internalCount (HNode.mk none (some l) (some r) num) := by
    simp [internalCount]
  obtain ⟨t1, heq1, hp1, hc1, hs1, hn1⟩ :=
    nn_pass_up _ (Proper.node l r num hl hr) 0
  obtain ⟨t2, lout, heq2, hp2, hc2, hs2, hn2, hnum2, hroot⟩ :=
    nn_pass_down t1 hp1
      ((internalCount (HNode.mk none (some l) (some r) num) : Int) - 1)
  have hnum0 : Numbered t2 0 := by
    have he : (internalCount (HNode.mk none (some l) (some r) num) : Int) - 1 -
        internalCount t1 + 1 = 0 := by
      rw [hc1]
      ring
    rw [he] at hnum2
    exact hnum2
  refine ⟨t2, ?_, ?_, hp2, by rw [hc2, hc1], hnum0, ?_, ?_, ?_, hk⟩
  · show Option.bind (nn_pass 1 (HNode.mk none (some l) (some r) num) 0)
      (fun x => Option.bind x.2.2.getLast? (fun last =>
        Option.bind (nn_pass (-1) x.1 last) (fun y => some y.1))) = some t2
    rw [heq1]
    simp only [Option.some_bind]
    rw [intRange_getLast 0 _ hk]
    simp only [Option.some_bind]
    have hz : (0 : Int) + (internalCount (HNode.mk none (some l) (some r)
        num) : Int) - 1 = (internalCount (HNode.mk none (some l) (some r)
        num) : Int) - 1 := by ring
    rw [hz, heq2]
    rfl
  · rw [hs2, hs1]
  · rw [numbered_internalNumsPost t2 _ hnum2]
    congr 1
    rw [hc2, hc1]
    congr 1
    ring
  · rw [hn2, hn1]
  · apply hroot
    -- t1 has the same strip as the internal root, so its symbol is none
    have h := congrArg HNode.symbol hs1
    rw [strip_symbol, strip_symbol] at h
    rw [h]
    rfl

/-- C5: for every proper tree whose root is an internal node with both
children present and k internal nodes, `number_nodes` succeeds and
assigns exactly the integers `0 .. k-1` to the internal nodes in
postorder (left subtree, right subtree, self); the root receives `k-1`,
the leaves' `number` fields are untouched, and nothing else in the tree
changes. -/
theorem number_nodes_postorder (t : HNode) (hp : Proper t)
    (hli : t.left ≠ none) :
    ∃ t2, number_nodes t = some t2 ∧ strip t2 = strip t ∧
      internalNumsPost t2 = (intRange 0 (internalCount t)).map some ∧
      leafNums t2 = leafNums t ∧
      t2.number = some ((internalCount t : Int) - 1) ∧
      1 ≤ internalCount t := by
  obtain ⟨t2, h1, h2, _, _, _, h3, h4, h5, h6⟩ := number_nodes_spec t hp hli
  exact ⟨t2, h1, h2, h3, h4, h5, h6⟩

/-- Witness for C5 at the two-leaf tree `Internal(Leaf 3, Leaf 2)`. -/
theorem number_nodes_postorder_witness :
    ∃ t2, number_nodes (nodeN (leafN 3) (leafN 2)) = some t2 ∧
      strip t2 = strip (nodeN (leafN 3) (leafN 2)) ∧
      internalNumsPost t2 =
        (intRange 0 (internalCount (nodeN (leafN 3) (leafN 2)))).map some ∧
      leafNums t2 = leafNums (nodeN (leafN 3) (leafN 2)) ∧
      t2.number =
        some ((internalCount (nodeN (leafN 3) (leafN 2)) : Int) - 1) ∧
      1 ≤ internalCount (nodeN (leafN 3) (leafN 2)) :=
  number_nodes_postorder (nodeN (leafN 3) (leafN 2))
    (Proper.node _ _ _ (Proper.leaf 3 none) (Proper.leaf 2 none))
    (by simp [nodeN, HNode.left])

-- Serialization lemmas: `tree_to_bytes` of a postorder-numbered proper
-- tree is the flattened postorder record list, and `generate_tree_general`
-- rebuilds the stripped tree from it.

theorem emitByte_nat (s : Nat) (h : s < 256) : emitByte (s : Int) = some s := by
  simp only [emitByte]
  rw [if_pos]
  · simp
  · constructor
    · positivity
    · exact_mod_cast h

theorem emitByte_int (m : Int) (h0 : 0 ≤ m) (h1 : m < 256) :
    emitByte m = some m.toNat := by
  simp [emitByte, h0, h1]

theorem flattenRecs_append (a b : List ReadNode) :
    flattenRecs (a ++ b) = flattenRecs a ++ flattenRecs b := by
  simp [flattenRecs]

theorem recsOf_length (t : HNode) (hp : Proper t) :
    (recsOf t).length = internalCount t := by
  induction hp with
  | leaf s num => rfl
  | node l r num hl hr ihl ihr =>
    simp only [recsOf, internalCount, List.length_append, List.length_cons,
      List.length_nil, ihl, ihr]

theorem bytes_to_nodes_flatten (R : List ReadNode) :
    bytes_to_nodes (flattenRecs R) = some R := by
  induction R with
  | nil => rfl
  | cons e rest ih =>
    obtain ⟨a, b, c, d⟩ := e
    show (do
      let l ← bytes_to_nodes (flattenRecs rest)
      some (ReadNode.mk a b c d :: l) : Option (List ReadNode)) = _
    rw [ih]
    rfl

theorem idepth_le_internalCount (t : HNode) (hp : Proper t) :
    idepth t ≤ internalCount t := by
  induction hp with
  | leaf s num => exact le_refl 0
  | node l r num hl hr ihl ihr =>
    simp only [idepth, internalCount]
    omega

theorem symsLT_node (l r : HNode) (num : Option Int) (b : Nat)
    (h : symsLT (.mk none (some l) (some r) num) b) :
    symsLT l b ∧ symsLT r b := by
  constructor <;> intro s hs <;> refine h s ?_ <;> simp [leafSyms, hs]

theorem symsLT_leaf (s : Nat) (num : Option Int) (b : Nat)
    (h : symsLT (.mk (some s) none none num) b) : s < b := by
  refine h s ?_
  simp [leafSyms]

theorem numbered_numsOK (u : HNode) (n0 : Int) (h : Numbered u n0) :
    0 ≤ n0 → n0 + internalCount u ≤ 256 → numsOK u := by
  induction h with
  | leaf s num n0 => intro _ _; trivial
  | node l r n0 hl hr ihl ihr =>
    intro h0 hle
    simp only [internalCount] at hle
    refine ⟨⟨n0 + internalCount l + internalCount r, rfl, by positivity, ?_⟩,
      ihl h0 (by push_cast at *; omega), ihr (by positivity) ?_⟩
    · push_cast at *
      omega
    · push_cast at *
      omega

theorem structEq_strip (t : HNode) (hp : Proper t) :
    structEq (strip t) t = true := by
  induction hp with
  | leaf s num => simp [strip, structEq]
  | node l r num hl hr ihl ihr =>
    simp [strip, structEq, ihl, ihr]

set_option maxRecDepth 4000 in
theorem ttb_eq (t : HNode) (hp : Proper t) :
    symsLT t 256 → numsOK t → t.symbol = none →
    tree_to_bytes t = some (flattenRecs (recsOf t)) := by
  induction hp with
  | leaf s num =>
    intro _ _ hsym
    simp [HNode.symbol] at hsym
  | node l r num hl hr ihl ihr =>
    intro hsyms hnums _
    obtain ⟨hsl, hsr⟩ := symsLT_node l r num 256 hsyms
    have hnums' : (∃ m : Int, num = some m ∧ 0 ≤ m ∧ m < 256) ∧
        numsOK l ∧ numsOK r := hnums
    obtain ⟨-, hnl, hnr⟩ := hnums'
    rcases hl with ⟨sl, numl⟩ | ⟨la, lb, numl, hla, hlb⟩ <;>
      rcases hr with ⟨sr, numr⟩ | ⟨ra, rb, numr, hra, hrb⟩
    · -- both children leaves
      have hs1 : sl < 256 := symsLT_leaf sl numl 256 hsl
      have hs2 : sr < 256 := symsLT_leaf sr numr 256 hsr
      show Option.bind (emitByte (sl : Int)) (fun lb =>
        Option.bind (emitByte (sr : Int)) (fun rb =>
          some [0, lb, 0, rb])) = _
      rw [emitByte_nat sl hs1, emitByte_nat sr hs2]
      rfl
    · -- left leaf, right internal
      have hs1 : sl < 256 := symsLT_leaf sl numl 256 hsl
      obtain ⟨⟨mr, hmr, hmr0, hmr1⟩, -, -⟩ := id hnr
      subst hmr
      show Option.bind (tree_to_bytes (.mk none (some ra) (some rb)
          (some mr))) (fun rest =>
        Option.bind (emitByte (sl : Int)) (fun lb =>
          Option.bind (emitByte mr) (fun rbv =>
            some (rest ++ [0, lb, 1, rbv])))) = _
      rw [ihr hsr hnr rfl, emitByte_nat sl hs1, emitByte_int mr hmr0 hmr1]
      show some _ = some (flattenRecs ([] ++
        recsOf (.mk none (some ra) (some rb) (some mr)) ++
        [mkRec (.mk (some sl) none none numl)
          (.mk none (some ra) (some rb) (some mr))]))
      rw [List.nil_append, flattenRecs_append]
      rfl
    · -- left internal, right leaf
      have hs2 : sr < 256 := symsLT_leaf sr numr 256 hsr
      obtain ⟨⟨ml, hml, hml0, hml1⟩, -, -⟩ := id hnl
      subst hml
      show Option.bind (tree_to_bytes (.mk none (some la) (some lb)
          (some ml))) (fun rest =>
        Option.bind (emitByte ml) (fun lbv =>
          Option.bind (emitByte (sr : Int)) (fun rbv =>
            some (rest ++ [1, lbv, 0, rbv])))) = _
      rw [ihl hsl hnl rfl, emitByte_int ml hml0 hml1, emitByte_nat sr hs2]
      show some _ = some (flattenRecs (
        recsOf (.mk none (some la) (some lb) (some ml)) ++ [] ++
        [mkRec (.mk none (some la) (some lb) (some ml))
          (.mk (some sr) none none numr)]))
      rw [List.append_nil, flattenRecs_append]
      rfl
    · -- both internal
      obtain ⟨⟨ml, hml, hml0, hml1⟩, -, -⟩ := id hnl
      obtain ⟨⟨mr, hmr, hmr0, hmr1⟩, -, -⟩ := id hnr
      subst hml
      subst hmr
      show Option.bind (tree_to_bytes (.mk none (some la) (some lb)
          (some ml))) (fun lres =>
        Option.bind (tree_to_bytes (.mk none (some ra) (some rb)
          (some mr))) (fun rres =>
          Option.bind (emitByte ml) (fun lbv =>
            Option.bind (emitByte mr) (fun rbv =>
              some (lres ++ rres ++ [1, lbv, 1, rbv]))))) = _
      rw [ihl hsl hnl rfl, ihr hsr hnr rfl, emitByte_int ml hml0 hml1,
        emitByte_int mr hmr0 hmr1]
      show some _ = some (flattenRecs (
        recsOf (.mk none (some la) (some lb) (some ml)) ++
        recsOf (.mk none (some ra) (some rb) (some mr)) ++
        [mkRec (.mk none (some la) (some lb) (some ml))
          (.mk none (some ra) (some rb) (some mr))]))
      rw [flattenRecs_append, flattenRecs_append]
      rfl

theorem intIndex_natCast (lst : List HNode) (k : Nat) :
    intIndex lst (k : Int) = lst.get? k := by
  simp [intIndex]

theorem helper_get (R : List ReadNode) (i : Nat) :
    (helper_generate_tree R).get? i = (R.get? i).map nodeOfRec := by
  simp [helper_generate_tree, List.get?_map]

theorem numbered_recsIndexed (u : HNode) (n0 : Int) (hnum : Numbered u n0) :
    Proper u → 0 ≤ n0 →
    ∀ R : List ReadNode,
      (∀ j, j < internalCount u → R.get? (n0.toNat + j) = (recsOf u).get? j) →
      RecsIndexed R u := by
  induction hnum with
  | leaf s num n0 => exact fun _ _ R _ => RecsIndexed.leaf s num
  | node l r n0 hnl hnr ihl ihr =>
    intro hp h0 R hR
    rcases hp with ⟨⟩ | ⟨_, _, _, hpl, hpr⟩
    have hkl := recsOf_length l hpl
    have hkr := recsOf_length r hpr
    have hklen : internalCount (HNode.mk none (some l) (some r)
        (some (n0 + internalCount l + internalCount r))) =
        internalCount l + internalCount r + 1 := rfl
    have hrecs : recsOf (HNode.mk none (some l) (some r)
        (some (n0 + internalCount l + internalCount r))) =
        recsOf l ++ recsOf r ++ [mkRec l r] := rfl
    refine RecsIndexed.node l r (n0 + internalCount l + internalCount r)
      (by positivity) ?_ ?_ ?_
    · have hj := hR (internalCount l + internalCount r)
        (by rw [hklen]; omega)
      have htn : (n0 + (internalCount l : Int) + internalCount r).toNat =
          n0.toNat + (internalCount l + internalCount r) := by omega
      have e1 : ((recsOf l ++ recsOf r) ++ [mkRec l r]).get?
          (internalCount l + internalCount r) =
          [mkRec l r].get? ((internalCount l + internalCount r) -
            (recsOf l ++ recsOf r).length) :=
        List.get?_append_right (by rw [List.length_append, hkl, hkr])
      rw [htn, hj, hrecs, e1]
      rw [List.length_append, hkl, hkr]
      simp
    · refine ihl hpl h0 R ?_
      intro j hj
      have hh := hR j (by rw [hklen]; omega)
      have e1 : ((recsOf l ++ recsOf r) ++ [mkRec l r]).get? j =
          (recsOf l ++ recsOf r).get? j :=
        List.get?_append (by rw [List.length_append, hkl, hkr]; omega)
      have e2 : (recsOf l ++ recsOf r).get? j = (recsOf l).get? j :=
        List.get?_append (by rw [hkl]; omega)
      rw [hh, hrecs, e1, e2]
    · refine ihr hpr (by positivity) R ?_
      intro j hj
      have hh := hR (internalCount l + j) (by rw [hklen]; omega)
      have htn : ((n0 : Int) + internalCount l).toNat + j =
          n0.toNat + (internalCount l + j) := by omega
      have e1 : ((recsOf l ++ recsOf r) ++ [mkRec l r]).get?
          (internalCount l + j) = (recsOf l ++ recsOf r).get?
            (internalCount l + j) :=
        List.get?_append (by rw [List.length_append, hkl, hkr]; omega)
      have e2 : (recsOf l ++ recsOf r).get? (internalCount l + j) =
          (recsOf r).get? ((internalCount l + j) - (recsOf l).length) :=
        List.get?_append_right (by rw [hkl]; omega)
      rw [htn, hh, hrecs, e1, e2, hkl]
      congr 1
      omega

set_option maxRecDepth 8000 in
theorem create_resolve (R : List ReadNode) :
    ∀ fuel l r num, Proper (.mk none (some l) (some r) num) →
      RecsIndexed R (.mk none (some l) (some r) num) →
      idepth (.mk none (some l) (some r) num) < fuel →
      create_tree (helper_generate_tree R) fuel
        (duplicate_node (nodeOfRec (mkRec l r))) =
        some (strip (.mk none (some l) (some r) num)) := by
  intro fuel
  induction fuel with
  | zero =>
    intro l r num _ _ hd
    omega
  | succ fuel ih =>
    intro l r num hp hri hd
    rcases hp with ⟨⟩ | ⟨_, _, _, hpl, hpr⟩
    rcases hri with ⟨⟩ | ⟨_, _, m, hm0, hmget, hril, hrir⟩
    have hdepth : idepth (HNode.mk none (some l) (some r) (some m)) =
        max (idepth l) (idepth r) + 1 := rfl
    have hfuel1 : 1 ≤ fuel := by omega
    have hdl : idepth l < fuel := by omega
    have hdr : idepth r < fuel := by omega
    have hchild : ∀ c : HNode, Proper c → RecsIndexed R c →
        idepth c < fuel →
        ∃ cNew,
          (if (childNode (kindOf c) (dataOf c)).symbol.isSome then
            some (childNode (kindOf c) (dataOf c))
          else
            Option.bind (childNode (kindOf c) (dataOf c)).number (fun n =>
              Option.bind (intIndex (helper_generate_tree R) n) (fun nd =>
                some (duplicate_node nd)))) = some cNew ∧
          create_tree (helper_generate_tree R) fuel cNew = some (strip c) := by
      intro c hpc hric hdc
      rcases hric with ⟨sc, numc⟩ | ⟨cl, cr, mc, hmc0, hmcget, hricl, hricr⟩
      · -- leaf child: kept as is and returned by the recursive call
        refine ⟨HNode.mk (some sc) none none none, rfl, ?_⟩
        rcases fuel with _ | fuel2
        · omega
        rfl
      · -- internal child: placeholder resolved through the record list
        rcases hpc with ⟨⟩ | ⟨_, _, _, hpcl, hpcr⟩
        refine ⟨duplicate_node (nodeOfRec (mkRec cl cr)), ?_, ?_⟩
        · show Option.bind (some ((mc.toNat : Nat) : Int)) (fun n =>
            Option.bind (intIndex (helper_generate_tree R) n) (fun nd =>
              some (duplicate_node nd))) = _
          rw [Option.some_bind, intIndex_natCast, helper_get, hmcget]
          rfl
        · have hidc : idepth (HNode.mk none (some cl) (some cr) (some mc)) <
              fuel := hdc
          exact ih cl cr (some mc) (Proper.node _ _ _ hpcl hpcr)
            (RecsIndexed.node cl cr mc hmc0 hmcget hricl hricr) hidc
    obtain ⟨lNew, hlNew, hlDone⟩ := hchild l hpl hril hdl
    obtain ⟨rNew, hrNew, hrDone⟩ := hchild r hpr hrir hdr
    show Option.bind
        (if (childNode (kindOf l) (dataOf l)).symbol.isSome then
          some (childNode (kindOf l) (dataOf l))
        else
          Option.bind (childNode (kindOf l) (dataOf l)).number (fun n =>
            Option.bind (intIndex (helper_generate_tree R) n) (fun nd =>
              some (duplicate_node nd))))
        (fun lNew =>
          Option.bind
            (if (childNode (kindOf r) (dataOf r)).symbol.isSome then
              some (childNode (kindOf r) (dataOf r))
            else
              Option.bind (childNode (kindOf r) (dataOf r)).number (fun n =>
                Option.bind (intIndex (helper_generate_tree R) n) (fun nd =>
                  some (duplicate_node nd))))
            (fun rNew =>
              Option.bind (create_tree (helper_generate_tree R) fuel rNew)
                (fun rDone =>
                  Option.bind (create_tree (helper_generate_tree R) fuel lNew)
                    (fun lDone =>
                      some (HNode.mk none (some lDone) (some rDone)
                        none))))) =
      some (strip (HNode.mk none (some l) (some r) (some m)))
    rw [hlNew, Option.some_bind, hrNew, Option.some_bind, hrDone,
      Option.some_bind, hlDone, Option.some_bind]
    rfl

theorem leafSyms_strip_proper (u : HNode) (hp : Proper u) :
    leafSyms (strip u) = leafSyms u := by
  induction hp with
  | leaf s num => rfl
  | node l r num hl hr ihl ihr =>
    show leafSyms (HNode.mk none (some (strip l)) (some (strip r)) none) = _
    simp only [leafSyms, ihl, ihr]

theorem strip_left_none (u : HNode) : (strip u).left = none ↔ u.left = none := by
  obtain ⟨s, l, r, num⟩ := u
  cases l <;> cases r <;> simp [strip, HNode.left]

theorem root_record (l r : HNode) (hpl : Proper l) (hpr : Proper r) :
    (recsOf l ++ recsOf r ++ [mkRec l r]).get?
      (internalCount l + internalCount r) = some (mkRec l r) := by
  have e1 : ((recsOf l ++ recsOf r) ++ [mkRec l r]).get?
      (internalCount l + internalCount r) =
      [mkRec l r].get? ((internalCount l + internalCount r) -
        (recsOf l ++ recsOf r).length) :=
    List.get?_append_right (by
      rw [List.length_append, recsOf_length l hpl, recsOf_length r hpr])
  rw [e1]
  rw [List.length_append, recsOf_length l hpl, recsOf_length r hpr]
  simp

theorem serialize_spec (t2 : HNode) (hp2 : Proper t2) (hnum : Numbered t2 0)
    (hli : t2.left ≠ none) (hsym : symsLT t2 256)
    (hk : internalCount t2 ≤ 256) :
    tree_to_bytes t2 = some (flattenRecs (recsOf t2)) ∧
      bytes_to_nodes (flattenRecs (recsOf t2)) = some (recsOf t2) ∧
      generate_tree_general (recsOf t2) (internalCount t2 - 1) =
        some (strip t2) := by
  have hOK : numsOK t2 :=
    numbered_numsOK t2 0 hnum (le_refl 0) (by omega)
  rcases hp0 : hp2 with ⟨s, num⟩ | ⟨l, r, num, hpl, hpr⟩
  · exact absurd rfl hli
  have hsymbol : (HNode.mk none (some l) (some r) num).symbol = none := rfl
  refine ⟨ttb_eq _ hp2 hsym hOK hsymbol, bytes_to_nodes_flatten _, ?_⟩
  -- deserialization
  have hri : RecsIndexed (recsOf (HNode.mk none (some l) (some r) num))
      (HNode.mk none (some l) (some r) num) := by
    refine numbered_recsIndexed _ 0 hnum hp2 (le_refl 0) _ ?_
    intro j hj
    simp
  rcases hri with ⟨⟩ | ⟨_, _, m, hm0, hmget, hril, hrir⟩
  have hcount : internalCount (HNode.mk none (some l) (some r) (some m)) =
      internalCount l + internalCount r + 1 := rfl
  have hrecs : recsOf (HNode.mk none (some l) (some r) (some m)) =
      recsOf l ++ recsOf r ++ [mkRec l r] := rfl
  have hrootget : (recsOf (HNode.mk none (some l) (some r) (some m))).get?
      (internalCount (HNode.mk none (some l) (some r) (some m)) - 1) =
      some (mkRec l r) := by
    rw [hrecs, hcount]
    rw [show internalCount l + internalCount r + 1 - 1 =
      internalCount l + internalCount r from rfl]
    exact root_record l r hpl hpr
  have hRlen : (recsOf (HNode.mk none (some l) (some r) (some m))).length =
      internalCount (HNode.mk none (some l) (some r) (some m)) :=
    recsOf_length _ hp2
  show Option.bind
      ((helper_generate_tree (recsOf (HNode.mk none (some l) (some r)
        (some m)))).get?
        (internalCount (HNode.mk none (some l) (some r) (some m)) - 1))
      (fun nd => create_tree
        (helper_generate_tree (recsOf (HNode.mk none (some l) (some r)
          (some m))))
        ((helper_generate_tree (recsOf (HNode.mk none (some l) (some r)
          (some m)))).length + 1)
        (duplicate_node nd)) = _
  rw [helper_get, hrootget]
  simp only [Option.map_some', Option.some_bind]
  have hflen : (helper_generate_tree (recsOf (HNode.mk none (some l) (some r)
      (some m)))).length =
      internalCount (HNode.mk none (some l) (some r) (some m)) := by
    rw [helper_generate_tree, List.length_map, hRlen]
  rw [hflen]
  refine create_resolve _ _ l r (some m) hp2
    (RecsIndexed.node l r m hm0 hmget hril hrir) ?_
  have := idepth_le_internalCount _ hp2
  omega

/-- C2: for every proper tree with byte-valued leaf symbols and at most
256 internal nodes, whose root is an internal node, numbering it with
`number_nodes` and then deserializing
`bytes_to_nodes (tree_to_bytes T)` with the general-index strategy at
root index `T.number` ( = internalCount - 1) rebuilds a tree
structurally equal to `T`: same branching shape and the same leaf
symbols at the same positions. -/
theorem serialize_deserialize_id (t : HNode) (hp : Proper t)
    (hli : t.left ≠ none) (hsym : symsLT t 256)
    (hk : internalCount t ≤ 256) :
    ∃ t2 L R v, number_nodes t = some t2 ∧
      t2.number = some ((internalCount t : Int) - 1) ∧
      tree_to_bytes t2 = some L ∧ bytes_to_nodes L = some R ∧
      generate_tree_general R (internalCount t - 1) = some v ∧
      structEq v t2 = true := by
  obtain ⟨t2, heq, hstrip, hp2, hc2, hnum0, _, _, hroot, hk1⟩ :=
    number_nodes_spec t hp hli
  have hsym2 : symsLT t2 256 := by
    intro s hs
    apply hsym
    rw [← leafSyms_strip_proper t hp, ← hstrip, leafSyms_strip_proper t2 hp2]
    exact hs
  have hli2 : t2.left ≠ none := by
    intro h
    apply hli
    rw [← strip_left_none, hstrip, strip_left_none] at h
    exact h
  obtain ⟨h1, h2, h3⟩ :=
    serialize_spec t2 hp2 hnum0 hli2 hsym2 (by rw [hc2]; exact hk)
  rw [hc2] at h3
  exact ⟨t2, flattenRecs (recsOf t2), recsOf t2, strip t2, heq, hroot, h1, h2,
    h3, structEq_strip t2 hp2⟩

/-- Witness for C2 at the two-leaf tree `Internal(Leaf 3, Leaf 2)`. -/
theorem serialize_deserialize_id_witness :
    ∃ t2 L R v, number_nodes (nodeN (leafN 3) (leafN 2)) = some t2 ∧
      t2.number =
        some ((internalCount (nodeN (leafN 3) (leafN 2)) : Int) - 1) ∧
      tree_to_bytes t2 = some L ∧ bytes_to_nodes L = some R ∧
      generate_tree_general R (internalCount (nodeN (leafN 3) (leafN 2)) - 1)
        = some v ∧
      structEq v t2 = true :=
  serialize_deserialize_id (nodeN (leafN 3) (leafN 2))
    (Proper.node _ _ _ (Proper.leaf 3 none) (Proper.leaf 2 none))
    (fun h => Option.noConfusion h)
    (by
      intro s hs
      simp only [nodeN, leafN, leafSyms, Option.toList, List.mem_append,
        List.mem_cons, List.not_mem_nil] at hs
      rcases hs with (h | h) | (h | h) <;> simp_all)
    (by decide)

/-- C1 (amended): for every byte buffer holding at least two distinct
byte values, with length below `2^32` (the 4-byte size field), the full
pipeline is the identity: `uncompress (compress B) = B`.  (For a buffer
with a single distinct symbol `compress` crashes, see the
counterexample.) -/
theorem compress_uncompress_id (text : List Nat)
    (hbytes : ∀ x ∈ text, x < 256) (hsize : text.length < 2 ^ 32)
    (a b : Nat) (ha : a ∈ text) (hb : b ∈ text) (hab : a ≠ b) :
    ∃ out, compress text = some out ∧ uncompress out = some text := by
  -- frequency-table facts
  have hkeysnd := make_freq_dict_keys_nodup text
  have hmemk := make_freq_dict_keys_mem text
  have hpos := make_freq_dict_pos text
  have h2 : 2 ≤ (make_freq_dict text).length := by
    have h2k := two_mem_length ((make_freq_dict text).map Prod.fst) a b
      ((hmemk a).mpr ha) ((hmemk b).mpr hb) hab
    rwa [List.length_map] at h2k
  have hklen : ((make_freq_dict text).map Prod.fst).length ≤ 256 :=
    nodup_lt_256_length _ hkeysnd (fun x hx => hbytes x ((hmemk x).mp hx))
  -- build the tree
  obtain ⟨l, r, htree, hl, hr, hperm⟩ :=
    huffman_tree_ok (make_freq_dict text) h2
  set T := HNode.mk none (some l) (some r) none with hT
  have hp : Proper T := Proper.node _ _ _ hl hr
  have hpermT : List.Perm (leafSyms T) ((make_freq_dict text).map Prod.fst) :=
    hperm
  have hndT : (leafSyms T).Nodup := (hpermT.nodup_iff).mpr hkeysnd
  have hsymlt : symsLT T 256 := fun s hs =>
    hbytes s ((hmemk s).mp (hpermT.mem_iff.mp hs))
  have hk256 : internalCount T < 256 := by
    have h1 := leafSyms_length T hp
    have h3 := hpermT.length_eq
    omega
  -- number the tree
  obtain ⟨t2, hnn, hstrip, hp2, hc2, hnum0, _, _, hroot, hkge1⟩ :=
    number_nodes_spec T hp (fun h => Option.noConfusion h)
  have hsy2 : leafSyms t2 = leafSyms T := by
    rw [← leafSyms_strip_proper t2 hp2, hstrip, leafSyms_strip_proper T hp]
  have hnd2 : (leafSyms t2).Nodup := by rw [hsy2]; exact hndT
  -- the code table used by `generate_compressed`
  have hcpT : get_codes T = codesPlain T [] := get_codes_eq_plain T hp hndT
  have hkeyscp : ((codesPlain T []).map Prod.fst).Nodup := by
    rw [keys_codesPlain T hp]
    exact hndT
  -- `avg_length` (evaluated for the print) succeeds
  have hgct2 : get_codes t2 = codesPlain t2 [] :=
    get_codes_eq_plain t2 hp2 hnd2
  obtain ⟨qa, havg⟩ := avg_length_isSome t2 (make_freq_dict text)
    (by
      intro kv hkv
      have hm1 : kv.1 ∈ (get_codes t2).map Prod.fst :=
        List.mem_map_of_mem Prod.fst hkv
      rw [hgct2, keys_codesPlain t2 hp2, hsy2] at hm1
      obtain ⟨f, hf⟩ := dictGet_isSome_of_mem _ _
        ((hmemk kv.1).mpr ((hmemk kv.1).mp (hpermT.mem_iff.mp hm1)))
      exact ⟨f, hf, hpos (kv.1, f) (dictGet_mem_pair _ _ _ hf)⟩)
    (by
      intro h0
      have h1 := keys_codesPlain t2 hp2 []
      rw [← hgct2, h0] at h1
      have h3 := leafSyms_length t2 hp2
      rw [← h1] at h3
      simp at h3)
  -- header byte
  have hnnb : num_nodes_to_bytes t2 = some [internalCount T] := by
    show Option.bind t2.number
      (fun n => Option.bind (emitByte (n + 1)) (fun b2 => some [b2])) = _
    rw [hroot]
    simp only [Option.some_bind]
    rw [show ((internalCount T : Int) - 1 + 1) = (internalCount T : Int) by
      ring]
    rw [emitByte_nat _ hk256]
    rfl
  -- serialized tree
  have hsym2 : symsLT t2 256 := fun s hs => hsymlt s (hsy2 ▸ hs)
  have hli2 : t2.left ≠ none := by
    intro h
    have h0 : T.left = none := by
      rw [← strip_left_none, ← hstrip, strip_left_none]
      exact h
    exact Option.noConfusion h0
  obtain ⟨httb, hbtn, hgtg⟩ := serialize_spec t2 hp2 hnum0 hli2 hsym2
    (by omega)
  rw [hc2] at hgtg
  -- size field
  obtain ⟨hsz, hszrt⟩ := size_roundtrip text.length hsize
  set SZ := [text.length % 256, text.length / 256 % 256,
    text.length / 2 ^ 16 % 256, text.length / 2 ^ 24 % 256] with hSZ
  -- packed payload
  have htne : text ≠ [] := by
    intro h0
    rw [h0] at ha
    exact (List.not_mem_nil a) ha
  obtain ⟨P, hgc, hbitsP⟩ := generate_compressed_spec text (get_codes T) htne
    (by
      intro x hx
      have hm1 : x ∈ (codesPlain T []).map Prod.fst := by
        rw [keys_codesPlain T hp]
        exact hpermT.mem_iff.mpr ((hmemk x).mpr hx)
      obtain ⟨c, hc⟩ := dictGet_isSome_of_mem _ _ hm1
      refine ⟨c, by rw [hcpT]; exact hc, ?_⟩
      exact codesPlain_code_ne_nil l r none hl hr x c
        (dictGet_mem_pair _ _ _ hc))
  rw [hcpT] at hbitsP
  -- the whole compressed artifact
  have hcomp : compress text = some (internalCount T ::
      (flattenRecs (recsOf t2) ++ (SZ ++ P))) := by
    show Option.bind (huffman_tree (make_freq_dict text)) _ = _
    rw [htree]
    simp only [Option.some_bind]
    show Option.bind (number_nodes T) _ = _
    rw [hnn]
    simp only [Option.some_bind]
    show Option.bind (avg_length t2 (make_freq_dict text)) _ = _
    rw [havg]
    simp only [Option.some_bind]
    show Option.bind (num_nodes_to_bytes t2) _ = _
    rw [hnnb]
    simp only [Option.some_bind]
    show Option.bind (tree_to_bytes t2) _ = _
    rw [httb]
    simp only [Option.some_bind]
    show Option.bind (size_to_bytes text.length) _ = _
    rw [hsz]
    simp only [Option.some_bind]
    show Option.bind (generate_compressed text (get_codes T)) _ = _
    rw [hgc]
    simp only [Option.some_bind]
    show some (([internalCount T] ++ flattenRecs (recsOf t2) ++ SZ) ++ P) = _
    rw [List.append_assoc, List.append_assoc]
    rfl
  -- parsing the artifact back
  have hlenTB : (flattenRecs (recsOf t2)).length = internalCount T * 4 := by
    rw [flattenRecs_length, recsOf_length t2 hp2, hc2]
    exact Nat.mul_comm 4 _
  have htakeTB : (flattenRecs (recsOf t2) ++ (SZ ++ P)).take
      (internalCount T * 4) = flattenRecs (recsOf t2) :=
    List.take_left' hlenTB
  have hdropTB : (flattenRecs (recsOf t2) ++ (SZ ++ P)).drop
      (internalCount T * 4) = SZ ++ P :=
    List.drop_left' hlenTB
  have hd1 : (internalCount T :: (flattenRecs (recsOf t2) ++
      (SZ ++ P))).drop (1 + internalCount T * 4) = SZ ++ P := by
    rw [Nat.add_comm 1 (internalCount T * 4), List.drop_succ_cons]
    exact hdropTB
  have hd2 : (internalCount T :: (flattenRecs (recsOf t2) ++
      (SZ ++ P))).drop (5 + internalCount T * 4) = P := by
    rw [show 5 + internalCount T * 4 = (1 + internalCount T * 4) + 4 from by
      omega]
    rw [← List.drop_drop, hd1]
    exact List.drop_left' rfl
  have htake4 : (SZ ++ P).take 4 = SZ := List.take_left' rfl
  -- decoding the payload
  have hcodeseq : get_codes (strip t2) = codesPlain T [] := by
    rw [hstrip, get_codes_eq_plain (strip T) (strip_proper T hp)
      (by rw [leafSyms_strip_proper T hp]; exact hndT)]
    exact codesPlain_strip T hp []
  have hscan := scan_text (codesPlain T []) text.length hkeyscp
    (codesPlain_values_nodup T hp [])
    (fun s1 c1 s2 c2 hm1 hm2 hne =>
      codes_prefix_free T hp s1 s2 c1 c2 hm1 hm2 hne)
    (fun s c hm => codesPlain_code_ne_nil l r none hl hr s c hm)
    text []
    (List.replicate ((8 - (catCodes (codesPlain T []) text).length % 8) % 8)
      false)
    htne (by simp)
    (fun x hx => by
      rw [keys_codesPlain T hp]
      exact hpermT.mem_iff.mpr ((hmemk x).mpr hx))
  have hgufinal : generate_uncompressed (strip t2) P text.length = text := by
    show scanBits (invert_dict (get_codes (strip t2))) (bitsOf P) [] []
      text.length = text
    rw [hcodeseq, hbitsP, hscan]
    rfl
  have huncomp : uncompress (internalCount T ::
      (flattenRecs (recsOf t2) ++ (SZ ++ P))) = some text := by
    show Option.bind (bytes_to_nodes ((flattenRecs (recsOf t2) ++
      (SZ ++ P)).take (internalCount T * 4))) _ = _
    rw [htakeTB, hbtn]
    simp only [Option.some_bind]
    show Option.bind (generate_tree_general (recsOf t2)
      (internalCount T - 1)) _ = _
    rw [hgtg]
    simp only [Option.some_bind]
    show some (generate_uncompressed (strip t2)
      ((internalCount T :: (flattenRecs (recsOf t2) ++ (SZ ++ P))).drop
        (5 + internalCount T * 4))
      (bytes_to_size (((internalCount T :: (flattenRecs (recsOf t2) ++
        (SZ ++ P))).drop (1 + internalCount T * 4)).take 4))) = _
    rw [hd2, hd1, htake4, hszrt, hgufinal]
  exact ⟨_, hcomp, huncomp⟩

/-- Witness for C1 at the two-byte buffer `b"\x00\x01"`. -/
theorem compress_uncompress_id_witness :
    ∃ out, compress [0, 1] = some out ∧ uncompress out = some [0, 1] :=
  compress_uncompress_id [0, 1] (by decide) (by decide) 0 1 (by decide)
    (by decide) (by decide)

/-- C10: for every tree whose root is missing a left child or a right
child (in particular a bare `Leaf` root), `number_nodes` returns
normally as a no-op: the guard fails, no `number` field is assigned and
the tree is returned entirely unmodified. -/
theorem number_nodes_noop (t : HNode) (h : t.left = none ∨ t.right = none) :
    number_nodes t = some t := by
  obtain ⟨s, l, r, num⟩ := t
  simp only [HNode.left, HNode.right] at h
  cases l <;> cases r <;> simp [number_nodes, HNode.left, HNode.right] <;>
    rcases h with h | h <;> simp at h

/-- Witness for C10 at a bare leaf root. -/
theorem number_nodes_noop_witness :
    ((leafN 5).left = none ∨ (leafN 5).right = none) ∧
      number_nodes (leafN 5) = some (leafN 5) :=
  ⟨Or.inl rfl, number_nodes_noop (leafN 5) (Or.inl rfl)⟩

/-- C9 (refuted): for the empty symbol sequence, `generate_compressed`
does not return the empty byte sequence — `comp_list` stays empty and
`comp_list[-1]` raises `IndexError` (modelled as `none`), for any code
table. -/
theorem generate_compressed_empty_fails (codes : List (Nat × List Bool)) :
    generate_compressed [] codes = none := rfl

/-- C8 (refuted): with the bits exhausted before `size` symbols have
been accumulated — here an empty payload and `size = 1` on a two-leaf
tree — the unpacker does not surface a failure: it falls off the scan
loop and returns the partial (empty) output as a normal value. -/
theorem generate_uncompressed_partial :
    generate_uncompressed exPair [] 1 = ([] : List Nat) := rfl

/-- C8 (amended): when the payload is empty (bits exhausted
immediately), `generate_uncompressed` returns the empty partial output
normally for every tree and every requested size, rather than failing. -/
theorem generate_uncompressed_empty (tree : HNode) (size : Nat) :
    generate_uncompressed tree [] size = ([] : List Nat) := rfl

theorem avg_leaf65 : avg_length (leafN 65) [(65, 1)] = some 0 := by
  show (do
    let sums_s ← [((65 : Nat), ([] : List Bool))].foldlM
      (fun (p : ℚ × ℚ) (kv : Nat × List Bool) => do
        let f ← dictGet [(65, 1)] kv.1
        pure (p.1 + (kv.2.length : ℚ) * (f : ℚ), p.2 + (f : ℚ)))
      ((0 : ℚ), (0 : ℚ))
    if sums_s.2 = 0 then none else some (round2 (sums_s.1 / sums_s.2)))
      = some 0
  norm_num [List.foldlM, dictGet, round2]

theorem avg_exT6 : avg_length exT6 exF6 = some ((117 : ℚ) / 100) := by
  show (do
    let sums_s ← [((1 : Nat), [false, false]), ((2 : Nat), [false, true]),
        ((3 : Nat), [true])].foldlM
      (fun (p : ℚ × ℚ) (kv : Nat × List Bool) => do
        let f ← dictGet exF6 kv.1
        pure (p.1 + (kv.2.length : ℚ) * (f : ℚ), p.2 + (f : ℚ)))
      ((0 : ℚ), (0 : ℚ))
    if sums_s.2 = 0 then none else some (round2 (sums_s.1 / sums_s.2)))
      = some ((117 : ℚ) / 100)
  norm_num [List.foldlM, dictGet, exF6, round2]

theorem avg_exT6imp : avg_length exT6imp exF6 = some ((48 : ℚ) / 25) := by
  show (do
    let sums_s ← [((3 : Nat), [false, false]), ((2 : Nat), [false, true]),
        ((1 : Nat), [true])].foldlM
      (fun (p : ℚ × ℚ) (kv : Nat × List Bool) => do
        let f ← dictGet exF6 kv.1
        pure (p.1 + (kv.2.length : ℚ) * (f : ℚ), p.2 + (f : ℚ)))
      ((0 : ℚ), (0 : ℚ))
    if sums_s.2 = 0 then none else some (round2 (sums_s.1 / sums_s.2)))
      = some ((48 : ℚ) / 25)
  norm_num [List.foldlM, dictGet, exF6, round2]

theorem avg_exT3n : avg_length exT3n exF7 = some ((13 : ℚ) / 5) := by
  show (do
    let sums_s ← [((1 : Nat), [false, false, false]),
        ((2 : Nat), [false, false, true]), ((3 : Nat), [false, true]),
        ((4 : Nat), [true])].foldlM
      (fun (p : ℚ × ℚ) (kv : Nat × List Bool) => do
        let f ← dictGet exF7 kv.1
        pure (p.1 + (kv.2.length : ℚ) * (f : ℚ), p.2 + (f : ℚ)))
      ((0 : ℚ), (0 : ℚ))
    if sums_s.2 = 0 then none else some (round2 (sums_s.1 / sums_s.2)))
      = some ((13 : ℚ) / 5)
  norm_num [List.foldlM, dictGet, exF7, round2]

theorem avg_exT3imp : avg_length exT3imp exF7 = some ((47 : ℚ) / 25) := by
  show (do
    let sums_s ← [((1 : Nat), [false, false]), ((2 : Nat), [false, true]),
        ((4 : Nat), [true])].foldlM
      (fun (p : ℚ × ℚ) (kv : Nat × List Bool) => do
        let f ← dictGet exF7 kv.1
        pure (p.1 + (kv.2.length : ℚ) * (f : ℚ), p.2 + (f : ℚ)))
      ((0 : ℚ), (0 : ℚ))
    if sums_s.2 = 0 then none else some (round2 (sums_s.1 / sums_s.2)))
      = some ((47 : ℚ) / 25)
  norm_num [List.foldlM, dictGet, exF7, round2]

/-- C1 (refuted on single-symbol buffers): on the buffer `[65]` — one
distinct symbol — `huffman_tree` returns a bare leaf, the numbering
guard fails, and `num_nodes_to_bytes` evaluates `None + 1`, raising
`TypeError`: `compress` fails, so the pipeline is not the identity. -/
theorem roundtrip_single_symbol_fails :
    (compress [65]).bind uncompress = none := by
  show (((avg_length (leafN 65) [(65, 1)]).bind fun _ => none).bind uncompress
      : Option (List Nat)) = none
  rw [avg_leaf65]
  rfl

/-- C3 (refuted): on the genuine general-index serialization of the
numbered depth-3 tree `exT3` (records `[0,1,0,2] [1,0,0,3] [1,1,0,4]`,
root index 2), the general-index strategy rebuilds the tree but the
postorder strategy pops records from the front and returns a tree
missing the middle internal node and leaf 3: the two strategies
disagree. -/
theorem strategies_disagree :
    (do
      let t2 ← number_nodes exT3
      let L ← tree_to_bytes t2
      let R ← bytes_to_nodes L
      let g ← generate_tree_general R 2
      let p ← generate_tree_postorder R 2
      pure (structEq g t2, structEq p t2, structEq g p))
      = some (true, false, false) := rfl

theorem improve_exT6 : improve_tree exT6 exF6 = some exT6imp := by
  show (do
    let _ ← avg_length exT6 exF6
    let _ ← avg_length exT6imp exF6
    some exT6imp : Option HNode) = some exT6imp
  rw [avg_exT6, avg_exT6imp]
  rfl

/-- C6 (refuted): on the numbered tree `exT6` with frequencies `exF6`,
`improve_tree` moves the frequent symbol 3 to the deepest leaf (it pairs
descending frequencies with ascending flat-byte indices, and the
flat-byte list is in postorder, deepest first), raising the average
length from 1.17 to 1.92. -/
theorem improve_tree_worsens :
    ∃ t1 a b, improve_tree exT6 exF6 = some t1 ∧
      avg_length exT6 exF6 = some a ∧ avg_length t1 exF6 = some b ∧ ¬ b ≤ a :=
  ⟨exT6imp, (117 : ℚ) / 100, (48 : ℚ) / 25, improve_exT6, avg_exT6,
    avg_exT6imp, by norm_num⟩

theorem improve_exT3n : improve_tree exT3n exF7 = some exT3imp := by
  show (do
    let _ ← avg_length exT3n exF7
    let _ ← avg_length exT3imp exF7
    some exT3imp : Option HNode) = some exT3imp
  rw [avg_exT3n, avg_exT3imp]
  rfl

/-- C7 (refuted): on the numbered depth-3 tree `exT3` with frequencies
`exF7`, the rebuild via `generate_tree_postorder` drops an internal
node and the leaf with symbol 3 entirely: `improve_tree` changes the
tree's shape (3 internal nodes and 4 leaves before, 2 and 3 after). -/
theorem improve_tree_changes_shape :
    ∃ t2 t1, number_nodes exT3 = some t2 ∧ improve_tree t2 exF7 = some t1 ∧
      internalCount t1 = 2 ∧ internalCount t2 = 3 ∧
      leafSyms t1 = [1, 2, 4] ∧ leafSyms t2 = [1, 2, 3, 4] :=
  ⟨exT3n, exT3imp, rfl, improve_exT3n, rfl, rfl, rfl, rfl⟩

end Huffman
